import Mathlib

/-!
Shallow embedding of the xtcjs conversion pipeline (CBZ/CBR/PDF → XTC) and
proofs about it.  The definitions below are translated from the repository's
TypeScript/JavaScript sources:

* `src/src/lib/converter.ts` — crop rectangle, cover reordering, per-page
  options, the slot scheduler of `processArchiveSourcePages`, and the
  mapping-context population loop;
* `src/src/lib/conversion/worker-pool.ts` — `ConvertWorkerPool.destroy`;
* `src/src/lib/processing/xtg` (also `src/app.js`) — `imageDataToXtg`;
* `src/app.js` / the unnamed legacy module — `buildXtc`;
* `src/src/lib/workers/convert-page.worker.ts` — the half-split band layout.

JavaScript numbers that only ever hold integers are modelled as `Nat`/`Int`;
the margin percentages (arbitrary doubles, possibly non-finite) are modelled
as `Option ℚ` with `none` standing for any non-finite value, matching the
`Number.isFinite` guard in `clampMarginPercent`.  Byte buffers are `List Nat`
with each element implicitly reduced mod 256 at write time.
-/

namespace Xtcjs

/-- Conversion options, from `src/src/lib/conversion/types.ts`.  Only the
fields read by the embedded code paths are carried.  String-valued enums are
kept as strings because the source compares them with `===` on string
literals. -/
structure ConversionOptions where
  splitMode : String
  dithering : String
  contrast : Int
  horizontalMargin : Option ℚ
  verticalMargin : Option ℚ
  orientation : String
  landscapeFlipClockwise : Bool
  showProgressPreview : Bool
  deriving Repr, DecidableEq

/-- Crop rectangle, from the `CropRect` interface in `converter.ts`. -/
structure CropRect where
  x : Int
  y : Int
  width : Int
  height : Int
  deriving Repr, DecidableEq

/-- `clampMarginPercent` from `converter.ts` (and the worker): non-finite
values become 0, finite values are clamped to [0, 20]. -/
def clampMarginPercent : Option ℚ → ℚ
  | none => 0
  | some v => max 0 (min 20 v)

/-- `getAxisCropRect` from `converter.ts` lines 52–72 (identical copy in
`convert-page.worker.ts`).  `Math.floor` on a nonnegative product is `Int.floor`
over ℚ; `(d - 1) / 2` is JS integer-valued division on a nonnegative even or
odd integer, i.e. `Int` division. -/
def getAxisCropRect (sourceWidth sourceHeight : Int) (options : ConversionOptions) :
    CropRect :=
  let horizontalMargin := clampMarginPercent options.horizontalMargin
  let verticalMargin := clampMarginPercent options.verticalMargin
  let maxCropX := (sourceWidth - 1) / 2
  let maxCropY := (sourceHeight - 1) / 2
  let cropX := min (⌊(sourceWidth : ℚ) * horizontalMargin / 100⌋) maxCropX
  let cropY := min (⌊(sourceHeight : ℚ) * verticalMargin / 100⌋) maxCropY
  { x := cropX
    y := cropY
    width := max 1 (sourceWidth - cropX * 2)
    height := max 1 (sourceHeight - cropY * 2) }

/-- `getPageProcessingOptions` from `converter.ts` lines 120–129: the cover
page is forced to splitMode "nosplit", every other page keeps the base
options. -/
def getPageProcessingOptions (baseOptions : ConversionOptions)
    (isCoverPage : Bool) : ConversionOptions :=
  if !isCoverPage || baseOptions.splitMode == "nosplit" then
    baseOptions
  else
    { baseOptions with splitMode := "nosplit" }

/-- The (sourceY, sourceHeight) extraction arguments of the two
`extractAndRotate` calls in the half-split branch of `processLoadedImage`
(`converter.ts` lines 737–755; identical in `processBitmap` of
`convert-page.worker.ts` and in `app.js`): the top band is
`(0, floor(h/2))`, the bottom band is `(floor(h/2), floor(h/2))`. -/
def halfSplitBands (height : Nat) : List (Nat × Nat) :=
  let halfHeight := height / 2
  [(0, halfHeight), (halfHeight, halfHeight)]

/-- A source row `r` is covered by a band `(y, bandHeight)` iff
`y ≤ r < y + bandHeight` (the rows read by `drawImage(src, x, y, w, h, ...)`). -/
def rowCoveredBy (band : Nat × Nat) (r : Nat) : Prop :=
  band.1 ≤ r ∧ r < band.1 + band.2

instance (band : Nat × Nat) (r : Nat) : Decidable (rowCoveredBy band r) := by
  unfold rowCoveredBy; infer_instance

/-- A row is covered by the half split iff some band covers it. -/
def halfSplitCovers (height r : Nat) : Prop :=
  ∃ band ∈ halfSplitBands height, rowCoveredBy band r

instance (height r : Nat) : Decidable (halfSplitCovers height r) := by
  unfold halfSplitCovers; infer_instance

/-- The per-index options callback that `convertCbzToXtc` (converter.ts line
391) and `convertCbrToXtc` (line 475) pass to `processArchiveSourcePages`:
`(index) => getPageProcessingOptions(options, index === 0)`. -/
def archivePageOptions (options : ConversionOptions) (index : Nat) : ConversionOptions :=
  getPageProcessingOptions options (index == 0)

/-- The population loop of the `PageMappingContext` at the end of
`processArchiveSourcePages` (converter.ts lines 310–316): for each source
index `i` from 0 to totalPages−1 in order, one `addOriginalPage` call with
the original page number and `(pageResultsByIndex[i] || []).length`.  The
results array is modelled as `Nat → Option (List α)` (`none` = hole). -/
def mappingCalls (totalPages : Nat) (pageResultsByIndex : Nat → Option (List α))
    (getOriginalPage : Nat → Int) : List (Int × Nat) :=
  (List.range totalPages).map
    (fun i => (getOriginalPage i, ((pageResultsByIndex i).getD []).length))

/-- One array-slot write `pageResultsByIndex[index] = pageResults`
(converter.ts line 294), as a function update. -/
def writeStep (acc : Nat → Option (List α)) (e : Nat × List α) :
    Nat → Option (List α) :=
  Function.update acc e.1 (some e.2)

/-- The results-by-index array as a function of the (completion-ordered) log
of writes performed by the slots of `processArchiveSourcePages`. -/
def applyWrites (writes : List (Nat × List α)) : Nat → Option (List α) :=
  writes.foldl writeStep (fun _ => none)

/-- An archive image entry as collected by `convertCbzToXtc` /
`convertCbrToXtc`: its archive path and its 1-based original page number
(assigned after the lexicographic path sort). -/
structure ImageFileEntry where
  path : String
  originalPage : Int
  deriving Repr, DecidableEq

/-- Book metadata, restricted to the cover-related fields read by
`moveCoverToFront` (the metadata module itself is outside the excerpted
core).  `coverPage` is `some k` when the metadata carries an integer cover
page number (`Number.isInteger` fails on `undefined` and non-integers). -/
structure BookMetadata where
  coverPage : Option Int
  coverImagePath : Option String
  deriving Repr, DecidableEq

/-- JS `Array.prototype.findIndex`: index of the first match, `-1` when
there is none. -/
def findIdxJs (p : α → Bool) : List α → Int
  | [] => -1
  | x :: xs =>
      if p x then 0
      else if findIdxJs p xs = -1 then -1 else findIdxJs p xs + 1

/-- `normalizeArchivePath` from `converter.ts` lines 74–80: backslashes to
slashes, strip one leading "./", strip leading slashes, lowercase. -/
def normalizeArchivePath (path : String) : String :=
  let slashes := path.map (fun c => if c = '\\' then '/' else c)
  let noDot := if slashes.startsWith "./" then slashes.drop 2 else slashes
  let noLead := noDot.dropWhile (fun c => c == '/')
  noLead.map Char.toLower

/-- `getBaseName` from `converter.ts` lines 82–86: the suffix after the last
slash (the whole path when it contains no slash). -/
def getBaseName (path : String) : String :=
  String.mk ((path.toList.reverse.takeWhile (fun c => c != '/')).reverse)

/-- The cover-index search of `moveCoverToFront` (converter.ts lines
94–112): first by original page number (when `coverPage` is a positive
integer), then by normalized path, then by base name. -/
def findCoverIndex (imageFiles : List ImageFileEntry) (metadata : BookMetadata) :
    Int :=
  let byPage : Int :=
    match metadata.coverPage with
    | some k => if 0 < k then findIdxJs (fun f => f.originalPage == k) imageFiles else -1
    | none => -1
  if byPage = -1 then
    match metadata.coverImagePath with
    | some coverPath =>
        let normalizedCoverPath := normalizeArchivePath coverPath
        let byPath := findIdxJs
          (fun f => normalizeArchivePath f.path == normalizedCoverPath) imageFiles
        if byPath = -1 then
          findIdxJs
            (fun f => getBaseName (normalizeArchivePath f.path)
                == getBaseName normalizedCoverPath) imageFiles
        else byPath
    | none => -1
  else byPage

/-- `moveCoverToFront` from `converter.ts` lines 88–118 (the in-place
`splice`/`unshift` is modelled by returning the reordered list): when a
cover is found at a positive index it is moved to the front; lists shorter
than 2 and index 0 (already in front) are left unchanged. -/
def moveCoverToFront (imageFiles : List ImageFileEntry) (metadata : BookMetadata) :
    List ImageFileEntry :=
  if imageFiles.length < 2 then imageFiles
  else
    let coverIndex := findCoverIndex imageFiles metadata
    if 0 < coverIndex then
      match imageFiles.get? coverIndex.toNat with
      | some cover => cover :: imageFiles.eraseIdx coverIndex.toNat
      | none => imageFiles
    else imageFiles

/-- A queued/in-flight job of `ConvertWorkerPool` (worker-pool.ts); only the
identity matters for the destroy semantics. -/
structure QueueJob where
  id : Nat
  deriving Repr, DecidableEq

/-- A worker lane of `ConvertWorkerPool`: its current job, whether it is
busy, and whether `worker.terminate()` has been called on it. -/
structure WorkerSlot where
  busy : Bool
  currentJob : Option QueueJob
  terminated : Bool
  deriving Repr, DecidableEq

/-- The mutable state of a `ConvertWorkerPool`. -/
structure PoolState where
  slots : List WorkerSlot
  queue : List QueueJob
  isDestroyed : Bool
  deriving Repr, DecidableEq

/-- `ConvertWorkerPool.destroy` (worker-pool.ts lines 107–123), returning
the new pool state together with the list of jobs whose promises were
rejected, in rejection order: an early return when already destroyed;
otherwise each slot's current job is rejected and cleared and the slot's
worker terminated, then the queue is drained front-to-back rejecting every
queued job. -/
def destroyPool (s : PoolState) : PoolState × List QueueJob :=
  if s.isDestroyed then (s, [])
  else
    let rejectedInFlight := s.slots.filterMap (fun slot => slot.currentJob)
    let newSlots := s.slots.map
      (fun slot => { slot with currentJob := none, terminated := true })
    ({ slots := newSlots, queue := [], isDestroyed := true },
     rejectedInFlight ++ s.queue)

/-- An `ImageData`: width, height, and the RGBA byte array as a function
from linear byte index to byte value (only channel 0 is ever read by the
encoder). -/
structure ImageDataM where
  width : Nat
  height : Nat
  data : Nat → Nat

/-- Little-endian bytes of a `setUint16` write (value taken mod 2^16). -/
def le16 (v : Nat) : List Nat := [v % 256, v / 256 % 256]

/-- Little-endian bytes of a `setUint32` write (value taken mod 2^32). -/
def le32 (v : Nat) : List Nat :=
  [v % 256, v / 256 % 256, v / 2 ^ 16 % 256, v / 2 ^ 24 % 256]

/-- Little-endian bytes of a `setBigUint64` write, as implemented in the
source via two `setUint32` calls on the low and high words. -/
def le64 (v : Nat) : List Nat := le32 v ++ le32 (v / 2 ^ 32)

/-- Read a little-endian u16 from a byte list (missing bytes read as 0). -/
def readU16 (l : List Nat) (off : Nat) : Nat :=
  l.getD off 0 + 256 * l.getD (off + 1) 0

/-- Read a little-endian u32 from a byte list. -/
def readU32 (l : List Nat) (off : Nat) : Nat :=
  readU16 l off + 2 ^ 16 * readU16 l (off + 2)

/-- Read a little-endian u64 from a byte list. -/
def readU64 (l : List Nat) (off : Nat) : Nat :=
  readU32 l off + 2 ^ 32 * readU32 l (off + 4)

/-- The body of the inner pixel loop of `imageDataToXtg`
(`src/src/lib/processing/xtg`, mirrored in `src/app.js` lines 457–467):
threshold channel 0 at 128 and OR the bit into
`pixelData[y*rowBytes + x/8]` at MSB-first position `7 - x%8`.  The
`Uint8Array` is modelled as a function from byte index to value. -/
def setBitStep (w : Nat) (data : Nat → Nat) (acc : Nat → Nat) (p : Nat × Nat) :
    Nat → Nat :=
  let idx := (p.1 * w + p.2) * 4
  let bit : Nat := if 128 ≤ data idx then 1 else 0
  let byteIndex := p.1 * ((w + 7) / 8) + p.2 / 8
  let bitIndex := 7 - p.2 % 8
  if bit = 1 then Function.update acc byteIndex (acc byteIndex ||| 1 <<< bitIndex)
  else acc

/-- The double loop `for y ... for x ...` traversal order. -/
def pixelTraversal (w h : Nat) : List (Nat × Nat) :=
  (List.range h).flatMap (fun y => (List.range w).map (fun x => (y, x)))

/-- The packed 1-bit bitmap of `imageDataToXtg` as a byte-index → value
function (the `pixelData` array, zero-initialised). -/
def packPixelData (img : ImageDataM) : Nat → Nat :=
  (pixelTraversal img.width img.height).foldl
    (setBitStep img.width img.data) (fun _ => 0)

/-- The 22-byte XTG header: magic "XTG\0", width u16, height u16, colorMode,
compression, dataSize u32, and the 8-byte digest (first `min 8 dataSize`
bytes of the packed bitmap, remaining digest bytes 0). -/
def xtgHeaderBytes (img : ImageDataM) : List Nat :=
  [0x58, 0x54, 0x47, 0x00]
    ++ le16 img.width ++ le16 img.height ++ [0, 0]
    ++ le32 ((img.width + 7) / 8 * img.height)
    ++ (List.range 8).map (fun i =>
        if i < min 8 ((img.width + 7) / 8 * img.height) then packPixelData img i else 0)

/-- `imageDataToXtg`: header followed by the packed bitmap
(`rowBytes * h` bytes, `rowBytes = ceil(w/8) = (w+7)/8`). -/
def imageDataToXtg (img : ImageDataM) : List Nat :=
  xtgHeaderBytes img
    ++ (List.range ((img.width + 7) / 8 * img.height)).map (packPixelData img)

/-- Pixel `p` contributes a set bit at byte `b`, bit position `j`. -/
def setsBit (w : Nat) (data : Nat → Nat) (p : Nat × Nat) (b j : Nat) : Prop :=
  128 ≤ data ((p.1 * w + p.2) * 4) ∧ p.1 * ((w + 7) / 8) + p.2 / 8 = b ∧
    7 - p.2 % 8 = j

/-- Device target dimensions (canvas-utils.js): 480×800 for the XTEink X4. -/
def TARGET_WIDTH : Nat := 480

/-- Device target height. -/
def TARGET_HEIGHT : Nat := 800

/-- One 16-byte XTC index entry as written by the index loop of `buildXtc`
(`src/app.js` lines 428–438): u64 offset, u32 size, u16 width, u16 height,
all little-endian. -/
def xtcIndexEntry (relOffset size : Nat) : List Nat :=
  le64 relOffset ++ le32 size ++ le16 TARGET_WIDTH ++ le16 TARGET_HEIGHT

/-- The index table of `buildXtc`: one entry per blob, with the running
`relOffset` accumulator starting at the caller's value and advancing by
each blob's byte length. -/
def xtcIndexTable : List (List Nat) → Nat → List Nat
  | [], _ => []
  | blob :: rest, relOffset =>
      xtcIndexEntry relOffset blob.length ++ xtcIndexTable rest (relOffset + blob.length)

/-- The 48-byte XTC container header (`src/app.js` lines 413–425): magic
"XTC\0", version 1, pageCount u16, four zero flag bytes, currentPage u32 = 0,
then metadataOffset = 0, indexOffset = 48, dataOffset, thumbOffset = 0 as
u64 little-endian. -/
def xtcContainerHeader (pageCount dataOffset : Nat) : List Nat :=
  [0x58, 0x54, 0x43, 0x00] ++ le16 1 ++ le16 pageCount ++ [0, 0, 0, 0] ++ le32 0
    ++ le64 0 ++ le64 48 ++ le64 dataOffset ++ le64 0

/-- `buildXtc` from `src/app.js` lines 393–447 (byte-identical logic in the
legacy unnamed module lines 370–431), applied to the already-encoded XTG
blobs in final page order: header, index table, then the concatenated page
data.  `indexOffset = headerSize = 48` and
`dataOffset = indexOffset + pageCount * 16` are inlined; the index-loop
accumulator `relOffset` is initialised to `dataOffset` (not 0), so the
written offsets are absolute file offsets. -/
def buildXtc (xtgBlobs : List (List Nat)) : List Nat :=
  xtcContainerHeader xtgBlobs.length (48 + xtgBlobs.length * 16)
    ++ (xtcIndexTable xtgBlobs (48 + xtgBlobs.length * 16) ++ xtgBlobs.flatten)

/-- Character codes of `String(n).padStart(4, '0')` for `n ≤ 9999` (the
page-number range the naming claim quantifies over): the four decimal digits
of `n` with leading zeros, most-significant first; `48` is the code of
'0'.  (For larger `n`, `padStart` would return the unpadded decimal and the
sort guarantee genuinely breaks, which is why every theorem below carries
the ≤ 9999 bound.) -/
def padStart4Zero (n : Nat) : List Nat :=
  [48 + n / 1000 % 10, 48 + n / 100 % 10, 48 + n / 10 % 10, 48 + n % 10]

/-- An output name `{pageNum:04d}_{kind}_{label}.png` as its character-code
list: `95` is '_', `48 + kind` the kind digit, and `[46,112,110,103]` is
".png". -/
def outputName (pageNum kind : Nat) (label : List Nat) : List Nat :=
  padStart4Zero pageNum ++ ([95, 48 + kind, 95] ++ (label ++ [46, 112, 110, 103]))

/-- The shape of one source page's processing outcome, as decided by
`processLoadedImage` / `processBitmap`: portrait (kind 0, label "page"),
unsplit landscape (kind 0, label "spread"), half split (kind 2, labels a
and b), or overlap split (kind 3, one letter per segment). -/
inductive PageMode where
  | portrait
  | spread
  | half
  | overlap (count : Nat)

/-- The output names one source page generates, in generation order; `97` is
the code of 'a' (`String.fromCharCode(97 + idx)`). -/
def pageOutputNames : PageMode → Nat → List (List Nat)
  | PageMode.portrait, p => [outputName p 0 [112, 97, 103, 101]]
  | PageMode.spread, p => [outputName p 0 [115, 112, 114, 101, 97, 100]]
  | PageMode.half, p => [outputName p 2 [97], outputName p 2 [98]]
  | PageMode.overlap c, p => (List.range c).map (fun i => outputName p 3 [97 + i])

/-- The name sequence generated by processing pages `pstart, pstart+1, …`
with the given modes, in generation order. -/
def generatedNamesFrom : Nat → List PageMode → List (List Nat)
  | _, [] => []
  | p, m :: rest => pageOutputNames m p ++ generatedNamesFrom (p + 1) rest

/-- The name sequence of a whole conversion (page numbers start at 1). -/
def generatedNames (modes : List PageMode) : List (List Nat) :=
  generatedNamesFrom 1 modes

/-- The name sort of `finalizeConversionResult` (converter.ts line 194:
`encodedPages.sort((a, b) => a.name.localeCompare(b.name))`), modelled as a
sort by the lexicographic order on the name's character codes (which is what
`localeCompare` computes on these ASCII digit/underscore/letter names).  A
page is a (name, payload) pair; any comparison sort yields this result on
the duplicate-free name lists at hand. -/
def sortPagesByName {α : Type} (pages : List (List Nat × α)) : List (List Nat × α) :=
  List.insertionSort (fun x y => x.1 ≤ y.1) pages

instance {α : Type} : IsTotal (List Nat × α) (fun x y => x.1 ≤ y.1) :=
  ⟨fun a b => le_total a.1 b.1⟩

instance {α : Type} : IsTrans (List Nat × α) (fun x y => x.1 ≤ y.1) :=
  ⟨fun _ _ _ hab hbc => le_trans hab hbc⟩

/-- Phase of one scheduler slot (`runSlot` invocation) of
`processArchiveSourcePages`. -/
inductive SlotPhase where
  | ready
  | working (index : Nat)
  | fallback (index : Nat)
  | done
  deriving Repr, DecidableEq

/-- Scheduler state of `processArchiveSourcePages` (converter.ts lines
219–305): the shared `nextIndex` counter, the sticky `workerDisabled` flag
(`pool = null` coincides with it after a failure), each slot's phase, and
how many times each results-array index has been written. -/
structure SchedState where
  nextIndex : Nat
  workerDisabled : Bool
  slots : Nat → SlotPhase
  writes : Nat → Nat

/-- State at the start of the `Promise.all`: counter 0, pool alive, every
slot at the top of its loop, no results written. -/
def initSched : SchedState :=
  { nextIndex := 0, workerDisabled := false,
    slots := fun _ => SlotPhase.ready, writes := fun _ => 0 }

/-- Whether a slot phase currently holds results-array index `i` (a page
pulled but not yet stored). -/
def slotHolds : SlotPhase → Nat → Bool
  | SlotPhase.working i, k => i == k
  | SlotPhase.fallback i, k => i == k
  | _, _ => false

/-- Number of slots below `lanes` currently holding index `i`. -/
def inflight (lanes : Nat) (slots : Nat → SlotPhase) (i : Nat) : Nat :=
  ∑ j in Finset.range lanes, (if slotHolds (slots j) i then 1 else 0)

/-- Interleaving semantics of the `runSlot` loop (converter.ts lines
234–302), with one transition per atomic section between `await` points:

* `exitDisabled` — the `if (workerDisabled && slotIndex > 0) return` check;
* `pullExit` / `pullWork` — `const index = nextIndex++` followed by the
  `index >= totalPages` return or entry into the page body;
* `workerOk` — `pool.processPage` resolved and the slot stored its results;
* `workerFail` — `pool.processPage` rejected: the catch sets
  `workerDisabled`, destroys the pool, and the page falls back in-process;
* `skipWorker` — the pool is already gone, so the page goes straight to the
  in-process path (this also covers an in-flight job rejected by a
  concurrent `destroy`);
* `fallbackDone` — `processImage` completed and the slot stored its
  results. -/
inductive SchedStep (total lanes : Nat) : SchedState → SchedState → Prop where
  | exitDisabled {s : SchedState} (j : Nat) (hj : j < lanes) (hj0 : 0 < j)
      (hd : s.workerDisabled = true) (hs : s.slots j = SlotPhase.ready) :
      SchedStep total lanes s
        { s with slots := Function.update s.slots j SlotPhase.done }
  | pullExit {s : SchedState} (j : Nat) (hj : j < lanes)
      (hok : s.workerDisabled = false ∨ j = 0) (hs : s.slots j = SlotPhase.ready)
      (hge : total ≤ s.nextIndex) :
      SchedStep total lanes s
        { s with nextIndex := s.nextIndex + 1,
                 slots := Function.update s.slots j SlotPhase.done }
  | pullWork {s : SchedState} (j : Nat) (hj : j < lanes)
      (hok : s.workerDisabled = false ∨ j = 0) (hs : s.slots j = SlotPhase.ready)
      (hlt : s.nextIndex < total) :
      SchedStep total lanes s
        { s with nextIndex := s.nextIndex + 1,
                 slots := Function.update s.slots j (SlotPhase.working s.nextIndex) }
  | workerOk {s : SchedState} (j i : Nat) (hj : j < lanes)
      (hs : s.slots j = SlotPhase.working i) (hd : s.workerDisabled = false) :
      SchedStep total lanes s
        { s with slots := Function.update s.slots j SlotPhase.ready,
                 writes := Function.update s.writes i (s.writes i + 1) }
  | workerFail {s : SchedState} (j i : Nat) (hj : j < lanes)
      (hs : s.slots j = SlotPhase.working i) (hd : s.workerDisabled = false) :
      SchedStep total lanes s
        { s with workerDisabled := true,
                 slots := Function.update s.slots j (SlotPhase.fallback i) }
  | skipWorker {s : SchedState} (j i : Nat) (hj : j < lanes)
      (hs : s.slots j = SlotPhase.working i) (hd : s.workerDisabled = true) :
      SchedStep total lanes s
        { s with slots := Function.update s.slots j (SlotPhase.fallback i) }
  | fallbackDone {s : SchedState} (j i : Nat) (hj : j < lanes)
      (hs : s.slots j = SlotPhase.fallback i) :
      SchedStep total lanes s
        { s with slots := Function.update s.slots j SlotPhase.ready,
                 writes := Function.update s.writes i (s.writes i + 1) }

/-- Reachability under the interleaving semantics. -/
def SchedReach (total lanes : Nat) : SchedState → SchedState → Prop :=
  Relation.ReflTransGen (SchedStep total lanes)

/-- All slots have returned (the `Promise.all` join has resolved). -/
def schedTerminal (lanes : Nat) (s : SchedState) : Prop :=
  ∀ j, j < lanes → s.slots j = SlotPhase.done

/-- The scheduler invariant: every pulled in-range index is accounted for by
exactly one write or one holding slot; un-pulled and out-of-range indices
are untouched; slot 0 only returns once the counter has passed the end. -/
def SchedInv (total lanes : Nat) (s : SchedState) : Prop :=
  (∀ i, i < s.nextIndex → i < total → s.writes i + inflight lanes s.slots i = 1) ∧
  (∀ i, s.nextIndex ≤ i → s.writes i = 0 ∧ inflight lanes s.slots i = 0) ∧
  (∀ i, total ≤ i → s.writes i = 0 ∧ inflight lanes s.slots i = 0) ∧
  (s.slots 0 = SlotPhase.done → total ≤ s.nextIndex)

end Xtcjs

namespace Xtcjs

/-- The clamped margin is always nonnegative. -/
theorem clampMarginPercent_nonneg (m : Option ℚ) : 0 ≤ clampMarginPercent m := by
  cases m with
  | none => simp [clampMarginPercent]
  | some v => simp [clampMarginPercent]

/-- The per-axis crop floor term is nonnegative for a nonnegative dimension. -/
theorem cropFloor_nonneg (d : Int) (hd : 0 ≤ d) (m : Option ℚ) :
    (0 : Int) ≤ ⌊(d : ℚ) * clampMarginPercent m / 100⌋ := by
  apply Int.le_floor.mpr
  rw [Int.cast_zero]
  apply div_nonneg (mul_nonneg _ (clampMarginPercent_nonneg m)) (by norm_num)
  exact_mod_cast hd

/-- C8: for source dimensions ≥ 1 and arbitrary margin options (including
non-finite ones, modelled by `none`), the crop amount per axis is
`min(floor(dim * clamp(margin,0,20) / 100), floor((dim-1)/2))`, it is applied
symmetrically (result dimension = dim − 2·crop), it never removes more than
`floor((dim-1)/2)` pixels per side, and the resulting rectangle is at least
1×1. -/
theorem getAxisCropRect_valid (w h : Int) (hw : 1 ≤ w) (hh : 1 ≤ h)
    (options : ConversionOptions) :
    (getAxisCropRect w h options).x
      = min (⌊(w : ℚ) * clampMarginPercent options.horizontalMargin / 100⌋) ((w - 1) / 2) ∧
    (getAxisCropRect w h options).y
      = min (⌊(h : ℚ) * clampMarginPercent options.verticalMargin / 100⌋) ((h - 1) / 2) ∧
    (getAxisCropRect w h options).width = w - 2 * (getAxisCropRect w h options).x ∧
    (getAxisCropRect w h options).height = h - 2 * (getAxisCropRect w h options).y ∧
    (getAxisCropRect w h options).x ≤ (w - 1) / 2 ∧
    (getAxisCropRect w h options).y ≤ (h - 1) / 2 ∧
    1 ≤ (getAxisCropRect w h options).width ∧
    1 ≤ (getAxisCropRect w h options).height := by
  have hfx := cropFloor_nonneg w (by omega) options.horizontalMargin
  have hfy := cropFloor_nonneg h (by omega) options.verticalMargin
  simp only [getAxisCropRect]
  refine ⟨trivial, trivial, ?_, ?_, ?_, ?_, ?_, ?_⟩ <;> omega

/-- Concrete options used by the C8 witness. -/
def optionsC8 : ConversionOptions :=
  { splitMode := "half", dithering := "floyd", contrast := 0,
    horizontalMargin := some 10, verticalMargin := none,
    orientation := "landscape", landscapeFlipClockwise := false,
    showProgressPreview := false }

/-- Witness for C8 at width 100, height 50, 10% horizontal margin and a
non-finite vertical margin. -/
theorem getAxisCropRect_valid_witness :
    (1 : Int) ≤ 100 ∧ (1 : Int) ≤ 50 ∧
    (getAxisCropRect 100 50 optionsC8).x ≤ (100 - 1) / 2 ∧
    1 ≤ (getAxisCropRect 100 50 optionsC8).width ∧
    1 ≤ (getAxisCropRect 100 50 optionsC8).height :=
  ⟨by norm_num, by norm_num,
   (getAxisCropRect_valid 100 50 (by norm_num) (by norm_num) optionsC8).2.2.2.2.1,
   (getAxisCropRect_valid 100 50 (by norm_num) (by norm_num) optionsC8).2.2.2.2.2.2.1,
   (getAxisCropRect_valid 100 50 (by norm_num) (by norm_num) optionsC8).2.2.2.2.2.2.2⟩

/-- Concrete options with a global splitMode of "overlap", used by witnesses. -/
def sampleOptions : ConversionOptions :=
  { splitMode := "overlap", dithering := "floyd", contrast := 1,
    horizontalMargin := some 0, verticalMargin := some 0,
    orientation := "landscape", landscapeFlipClockwise := false,
    showProgressPreview := true }

/-- C10: the archive conversions call `getPageProcessingOptions` with
`isCoverPage = (index === 0)` unconditionally, so processing index 0 is
always forced to splitMode "nosplit" (whatever the global splitMode and
whether or not metadata named a cover), and every other index keeps the
global options unchanged. -/
theorem archivePageOptions_first_nosplit (options : ConversionOptions) :
    (archivePageOptions options 0).splitMode = "nosplit" ∧
    ∀ index : Nat, index ≠ 0 → archivePageOptions options index = options := by
  constructor
  · by_cases hsm : options.splitMode = "nosplit" <;>
      simp [archivePageOptions, getPageProcessingOptions, hsm]
  · intro index hne
    simp [archivePageOptions, getPageProcessingOptions, hne]

/-- Witness for C10 with global splitMode "overlap": index 0 is forced to
"nosplit", index 1 keeps the options. -/
theorem archivePageOptions_first_nosplit_witness :
    (archivePageOptions sampleOptions 0).splitMode = "nosplit" ∧
    archivePageOptions sampleOptions 1 = sampleOptions :=
  ⟨(archivePageOptions_first_nosplit sampleOptions).1,
   (archivePageOptions_first_nosplit sampleOptions).2 1 (by decide)⟩

/-- C3 counterexample: for cropped height 5 the two half-split bands are
`(0, 2)` and `(2, 2)` — the bottom band does NOT extend to row 4, so row 4
(the last row of the image) is covered by neither band, contradicting the
claim that the bands cover the full height with the extra row in the bottom
band. -/
theorem halfSplit_drops_last_row_of_odd :
    halfSplitBands 5 = [(0, 2), (2, 2)] ∧ ¬ halfSplitCovers 5 4 := by
  constructor
  · rfl
  · decide

/-- C3 amended: the top band is rows [0, ⌊h/2⌋) and the bottom band is rows
[⌊h/2⌋, 2·⌊h/2⌋): the two bands cover a row iff it is below `2·⌊h/2⌋`, so for
odd cropped height the last row belongs to neither band and is dropped. -/
theorem halfSplit_coverage (height r : Nat) :
    halfSplitCovers height r ↔ r < 2 * (height / 2) := by
  simp only [halfSplitCovers, halfSplitBands, rowCoveredBy, List.mem_cons,
    List.mem_singleton, List.not_mem_nil, or_false]
  constructor
  · rintro ⟨band, hband | hband, hle, hlt⟩ <;> subst hband <;> omega
  · intro hr
    by_cases htop : r < height / 2
    · exact ⟨(0, height / 2), Or.inl rfl, by omega, by omega⟩
    · exact ⟨(height / 2, height / 2), Or.inr rfl, by omega, by omega⟩

/-- A fold of index-writes evaluated at `i` only depends on the accumulator's
value at `i`. -/
theorem foldl_update_apply_congr {α : Type} (ws : List (Nat × List α))
    (g₁ g₂ : Nat → Option (List α)) (i : Nat) (h : g₁ i = g₂ i) :
    (ws.foldl writeStep g₁) i = (ws.foldl writeStep g₂) i := by
  induction ws generalizing g₁ g₂ with
  | nil => exact h
  | cons w ws ih =>
      rw [List.foldl_cons, List.foldl_cons]
      apply ih
      rw [writeStep, writeStep, Function.update_apply, Function.update_apply]
      by_cases hw : i = w.1
      · rw [if_pos hw, if_pos hw]
      · rw [if_neg hw, if_neg hw]; exact h

/-- A fold of index-writes that never touches `i` leaves the accumulator's
value at `i` unchanged. -/
theorem foldl_update_apply_not_mem {α : Type} (ws : List (Nat × List α))
    (g : Nat → Option (List α)) (i : Nat) (h : ∀ p ∈ ws, p.1 ≠ i) :
    (ws.foldl writeStep g) i = g i := by
  induction ws generalizing g with
  | nil => rfl
  | cons w ws ih =>
      rw [List.foldl_cons, ih _ (fun p hp => h p (List.mem_cons_of_mem _ hp))]
      exact Function.update_noteq (fun hc => h w (List.mem_cons_self _ _) hc.symm) _ _

/-- One unfolding step of `applyWrites`. -/
theorem applyWrites_cons {α : Type} (w : Nat × List α) (ws : List (Nat × List α))
    (i : Nat) :
    applyWrites (w :: ws) i
      = (ws.foldl writeStep (writeStep (fun _ => none) w)) i := rfl

/-- With no index written twice, the results array holds, at `i`, the value
of the unique write to `i` (or `none` when there is none). -/
theorem applyWrites_apply {α : Type} (writes : List (Nat × List α)) (i : Nat)
    (hnodup : (writes.map Prod.fst).Nodup) :
    applyWrites writes i = (writes.find? (fun e => e.1 == i)).map Prod.snd := by
  induction writes with
  | nil => rfl
  | cons w ws ih =>
      rw [List.map_cons, List.nodup_cons] at hnodup
      obtain ⟨hwnot, hnodup'⟩ := hnodup
      by_cases hw : w.1 = i
      · have hnot : ∀ p ∈ ws, p.1 ≠ i := by
          intro p hp hpi
          exact hwnot (hw ▸ hpi ▸ List.mem_map_of_mem Prod.fst hp)
        have harr : applyWrites (w :: ws) i = some w.2 := by
          rw [applyWrites_cons, foldl_update_apply_not_mem ws _ i hnot,
            writeStep, Function.update_apply, if_pos hw.symm]
        have hfind : List.find? (fun e => e.1 == i) (w :: ws) = some w := by
          apply List.find?_cons_of_pos
          simp [hw]
        rw [harr, hfind]
        rfl
      · have harr : applyWrites (w :: ws) i = applyWrites ws i := by
          rw [applyWrites_cons]
          exact foldl_update_apply_congr ws _ _ i
            (by rw [writeStep]
                exact Function.update_noteq (fun hc => hw hc.symm) _ _)
        have hfind : List.find? (fun e => e.1 == i) (w :: ws)
            = List.find? (fun e => e.1 == i) ws := by
          apply List.find?_cons_of_neg
          simp [hw]
        rw [harr, ih hnodup', hfind]

/-- `find?` by key is permutation-invariant when keys are unique. -/
theorem find?_key_perm {α : Type} (l₁ l₂ : List (Nat × List α))
    (hperm : l₁.Perm l₂) (hnodup : (l₁.map Prod.fst).Nodup) (i : Nat) :
    l₁.find? (fun e => e.1 == i) = l₂.find? (fun e => e.1 == i) := by
  cases hfind : l₁.find? (fun e => e.1 == i) with
  | none =>
      cases hfind₂ : l₂.find? (fun e => e.1 == i) with
      | none => rfl
      | some w =>
          have hw := List.find?_some hfind₂
          have hmem : w ∈ l₁ := hperm.mem_iff.mpr (List.mem_of_find?_eq_some hfind₂)
          exact absurd hw (List.find?_eq_none.mp hfind w hmem)
  | some w =>
      have hw := List.find?_some hfind
      have hmem₂ : w ∈ l₂ := hperm.mem_iff.mp (List.mem_of_find?_eq_some hfind)
      cases hfind₂ : l₂.find? (fun e => e.1 == i) with
      | none =>
          exact absurd hw (List.find?_eq_none.mp hfind₂ w hmem₂)
      | some w' =>
          have hw' := List.find?_some hfind₂
          have hmem₁' : w' ∈ l₁ := hperm.mem_iff.mpr (List.mem_of_find?_eq_some hfind₂)
          have heq : w = w' := by
            have h1 : w.1 = i := by simpa using hw
            have h2 : w'.1 = i := by simpa using hw'
            exact List.inj_on_of_nodup_map hnodup
              (List.mem_of_find?_eq_some hfind) hmem₁' (by rw [h1, h2])
          rw [heq]

/-- The sequence of original page numbers used by the C7 witness. -/
def sampleOriginalPage (i : Nat) : Int := i + 1

/-- C7: the `addOriginalPage` call sequence performed after the
`Promise.all` join has exactly one call per source index, in ascending index
order, each passing the number of output pages stored for that index (0 for
an index that produced no results), and the sequence is invariant under the
completion order of the writes to the results-by-index array (any
permutation of a write log with distinct indices yields the same calls). -/
theorem mappingCalls_spec {α : Type} (total : Nat) (orig : Nat → Int)
    (writes₁ writes₂ : List (Nat × List α))
    (hperm : writes₁.Perm writes₂) (hnodup : (writes₁.map Prod.fst).Nodup) :
    (mappingCalls total (applyWrites writes₁) orig).length = total ∧
    (∀ i, i < total →
      (mappingCalls total (applyWrites writes₁) orig).get? i
        = some (orig i, ((applyWrites writes₁ i).getD []).length)) ∧
    (∀ i, i < total → applyWrites writes₁ i = none →
      (mappingCalls total (applyWrites writes₁) orig).get? i = some (orig i, 0)) ∧
    mappingCalls total (applyWrites writes₁) orig
      = mappingCalls total (applyWrites writes₂) orig := by
  have harr : applyWrites writes₁ = applyWrites writes₂ := by
    funext i
    rw [applyWrites_apply writes₁ i hnodup,
      applyWrites_apply writes₂ i (((hperm.map Prod.fst).nodup_iff).mp hnodup),
      find?_key_perm writes₁ writes₂ hperm hnodup i]
  refine ⟨by simp [mappingCalls], ?_, ?_, by rw [harr]⟩
  · intro i hi
    rw [mappingCalls, List.get?_eq_getElem?, List.getElem?_map, List.getElem?_range hi]
    rfl
  · intro i hi hnone
    rw [mappingCalls, List.get?_eq_getElem?, List.getElem?_map, List.getElem?_range hi]
    simp [hnone]

/-- Witness for C7: two completion orders of the same writes (index 1
finished before index 0 in the second log); index 2 was never written and
contributes a zero count. -/
theorem mappingCalls_spec_witness :
    ([((0 : Nat), [5, 6]), (1, ([] : List Nat))].Perm
        [((1 : Nat), ([] : List Nat)), (0, [5, 6])]) ∧
    (([((0 : Nat), [5, 6]), (1, ([] : List Nat))]).map Prod.fst).Nodup ∧
    mappingCalls 3 (applyWrites [((0 : Nat), [5, 6]), (1, ([] : List Nat))]) sampleOriginalPage
      = mappingCalls 3 (applyWrites [((1 : Nat), ([] : List Nat)), (0, [5, 6])])
          sampleOriginalPage :=
  ⟨by decide, by decide,
   (mappingCalls_spec 3 sampleOriginalPage _ _ (by decide) (by decide)).2.2.2⟩

/-- `findIdxJs` never returns anything below −1. -/
theorem findIdxJs_ge_neg_one {α : Type} (p : α → Bool) (l : List α) :
    -1 ≤ findIdxJs p l := by
  induction l with
  | nil => norm_num [findIdxJs]
  | cons x xs ih =>
      simp only [findIdxJs]
      by_cases hx : p x
      · rw [if_pos hx]; omega
      · rw [if_neg hx]
        by_cases hne : findIdxJs p xs = -1
        · rw [if_pos hne]
        · rw [if_neg hne]; omega

/-- `findIdxJs` succeeds (returns ≥ 0) when some element matches. -/
theorem findIdxJs_nonneg_of_mem {α : Type} {p : α → Bool} {l : List α} {f : α}
    (hmem : f ∈ l) (hp : p f = true) : 0 ≤ findIdxJs p l := by
  induction l with
  | nil => cases hmem
  | cons x xs ih =>
      simp only [findIdxJs]
      by_cases hx : p x
      · rw [if_pos hx]
      · rw [if_neg hx]
        rcases List.mem_cons.mp hmem with hxf | hmem'
        · subst hxf; exact absurd hp hx
        · have h0 := ih hmem'
          have hne : findIdxJs p xs ≠ -1 := by omega
          rw [if_neg hne]; omega

/-- A successful `findIdxJs` points at a matching element. -/
theorem findIdxJs_get {α : Type} {p : α → Bool} {l : List α}
    (h : 0 ≤ findIdxJs p l) :
    ∃ f, l.get? (findIdxJs p l).toNat = some f ∧ p f = true := by
  induction l with
  | nil => norm_num [findIdxJs] at h
  | cons x xs ih =>
      by_cases hx : p x
      · refine ⟨x, ?_, hx⟩
        simp [findIdxJs, hx]
      · by_cases hne : findIdxJs p xs = -1
        · simp only [findIdxJs, if_neg hx, if_pos hne] at h
          norm_num at h
        · have hge := findIdxJs_ge_neg_one p xs
          have h0 : 0 ≤ findIdxJs p xs := by omega
          obtain ⟨f, hget, hpf⟩ := ih h0
          refine ⟨f, ?_, hpf⟩
          simp only [findIdxJs, if_neg hx, if_neg hne]
          have htn : (findIdxJs p xs + 1).toNat = (findIdxJs p xs).toNat + 1 := by
            omega
          rw [htn]
          simpa using hget

/-- C6: when the metadata's cover page is a positive integer `k` carried by
some source page, `moveCoverToFront` puts a page with original page number
`k` first in processing order, and the per-page options force the cover
(processing index 0) to splitMode "nosplit" while non-cover pages keep the
global options unchanged (whatever the global splitMode is). -/
theorem moveCoverToFront_cover_first (files : List ImageFileEntry)
    (md : BookMetadata) (k : Int) (opts : ConversionOptions)
    (hlen : 2 ≤ files.length) (hcover : md.coverPage = some k) (hk : 0 < k)
    (hex : ∃ f ∈ files, f.originalPage = k) :
    ((moveCoverToFront files md).head?.map (fun f => f.originalPage) = some k) ∧
    (getPageProcessingOptions opts true).splitMode = "nosplit" ∧
    getPageProcessingOptions opts false = opts := by
  obtain ⟨f0, hf0mem, hf0orig⟩ := hex
  have hp0 : (f0.originalPage == k) = true := by simp [hf0orig]
  have hnn : 0 ≤ findIdxJs (fun f => f.originalPage == k) files :=
    findIdxJs_nonneg_of_mem hf0mem hp0
  obtain ⟨f, hget, hpf⟩ := findIdxJs_get hnn
  have hfk : f.originalPage = k := by simpa using hpf
  have hidx : findCoverIndex files md
      = findIdxJs (fun f => f.originalPage == k) files := by
    simp only [findCoverIndex, hcover]
    rw [if_pos hk, if_neg (by omega)]
  refine ⟨?_, ?_, ?_⟩
  · simp only [moveCoverToFront]
    rw [if_neg (by omega), hidx]
    by_cases hj : 0 < findIdxJs (fun f => f.originalPage == k) files
    · rw [if_pos hj, hget]
      simp [hfk]
    · have hj0 : findIdxJs (fun f => f.originalPage == k) files = 0 := by omega
      rw [if_neg hj]
      rw [hj0] at hget
      cases files with
      | nil => simp at hget
      | cons a as =>
          have haf : a = f := by simpa using hget
          subst haf
          simp [hfk]
  · by_cases hsm : opts.splitMode = "nosplit" <;>
      simp [getPageProcessingOptions, hsm]
  · simp [getPageProcessingOptions]

/-- Witness for C6: three pages with metadata cover page 2 — that page moves
to the front, and the cover is forced to "nosplit" under a global "overlap"
splitMode. -/
theorem moveCoverToFront_cover_first_witness :
    2 ≤ ([⟨"a.png", 1⟩, ⟨"b.png", 2⟩, ⟨"c.png", 3⟩] : List ImageFileEntry).length ∧
    (0 : Int) < 2 ∧
    ((moveCoverToFront [⟨"a.png", 1⟩, ⟨"b.png", 2⟩, ⟨"c.png", 3⟩]
        ⟨some 2, none⟩).head?.map (fun f => f.originalPage) = some 2) ∧
    (getPageProcessingOptions sampleOptions true).splitMode = "nosplit" :=
  ⟨by decide, by decide,
   (moveCoverToFront_cover_first [⟨"a.png", 1⟩, ⟨"b.png", 2⟩, ⟨"c.png", 3⟩]
      ⟨some 2, none⟩ 2 sampleOptions (by decide) rfl (by decide)
      ⟨⟨"b.png", 2⟩, by decide, rfl⟩).1,
   (moveCoverToFront_cover_first [⟨"a.png", 1⟩, ⟨"b.png", 2⟩, ⟨"c.png", 3⟩]
      ⟨some 2, none⟩ 2 sampleOptions (by decide) rfl (by decide)
      ⟨⟨"b.png", 2⟩, by decide, rfl⟩).2.1⟩

/-- Destroying an already-destroyed pool is the early-return branch. -/
theorem destroyPool_of_destroyed (s : PoolState) (h : s.isDestroyed = true) :
    destroyPool s = (s, []) := by
  simp [destroyPool, h]

/-- C9: on a live pool, `destroy` rejects exactly the in-flight jobs (one per
busy slot, in slot order) followed by every queued job (in queue order),
clears every slot, terminates every lane, empties the queue, marks the pool
destroyed, and a second `destroy` on the resulting state performs no action
(same state, no rejections) — in particular it cannot throw, being a total
function. -/
theorem destroyPool_spec (s : PoolState) (hlive : s.isDestroyed = false) :
    (destroyPool s).2 = s.slots.filterMap (fun slot => slot.currentJob) ++ s.queue ∧
    (destroyPool s).1.queue = [] ∧
    (∀ slot ∈ (destroyPool s).1.slots,
      slot.currentJob = none ∧ slot.terminated = true) ∧
    (destroyPool s).1.isDestroyed = true ∧
    (destroyPool s).1.slots.length = s.slots.length ∧
    destroyPool (destroyPool s).1 = ((destroyPool s).1, []) := by
  refine ⟨?_, ?_, ?_, ?_, ?_, ?_⟩
  · simp [destroyPool, hlive]
  · simp [destroyPool, hlive]
  · intro slot hmem
    simp only [destroyPool, hlive, Bool.false_eq_true, if_false] at hmem
    simp only [List.mem_map] at hmem
    obtain ⟨s₀, _, hs₀⟩ := hmem
    rw [← hs₀]
    exact ⟨rfl, rfl⟩
  · simp [destroyPool, hlive]
  · simp [destroyPool, hlive]
  · have hdes : (destroyPool s).1.isDestroyed = true := by simp [destroyPool, hlive]
    exact destroyPool_of_destroyed _ hdes

/-- Witness for C9: two lanes (one busy with job 1), two queued jobs 2 and
3 — destroy rejects jobs 1, 2, 3 in that order and a second destroy is a
no-op. -/
theorem destroyPool_spec_witness :
    (PoolState.mk [⟨true, some ⟨1⟩, false⟩, ⟨false, none, false⟩]
        [⟨2⟩, ⟨3⟩] false).isDestroyed = false ∧
    (destroyPool (PoolState.mk [⟨true, some ⟨1⟩, false⟩, ⟨false, none, false⟩]
        [⟨2⟩, ⟨3⟩] false)).2
      = ([⟨true, some ⟨1⟩, false⟩, ⟨false, none, false⟩] :
          List WorkerSlot).filterMap (fun slot => slot.currentJob) ++ [⟨2⟩, ⟨3⟩] ∧
    destroyPool (destroyPool (PoolState.mk
        [⟨true, some ⟨1⟩, false⟩, ⟨false, none, false⟩] [⟨2⟩, ⟨3⟩] false)).1
      = ((destroyPool (PoolState.mk
          [⟨true, some ⟨1⟩, false⟩, ⟨false, none, false⟩] [⟨2⟩, ⟨3⟩] false)).1, []) :=
  ⟨rfl,
   (destroyPool_spec (PoolState.mk [⟨true, some ⟨1⟩, false⟩, ⟨false, none, false⟩]
      [⟨2⟩, ⟨3⟩] false) rfl).1,
   (destroyPool_spec (PoolState.mk [⟨true, some ⟨1⟩, false⟩, ⟨false, none, false⟩]
      [⟨2⟩, ⟨3⟩] false) rfl).2.2.2.2.2⟩

/-- Bit view of one pixel-loop iteration. -/
theorem testBit_setBitStep (w : Nat) (data : Nat → Nat) (acc : Nat → Nat)
    (p : Nat × Nat) (b j : Nat) :
    Nat.testBit ((setBitStep w data acc p) b) j
      ↔ (Nat.testBit (acc b) j ∨ setsBit w data p b j) := by
  simp only [setBitStep, setsBit]
  by_cases hbit : 128 ≤ data ((p.1 * w + p.2) * 4)
  · rw [if_pos (by rw [if_pos hbit])]
    by_cases hb : p.1 * ((w + 7) / 8) + p.2 / 8 = b
    · subst hb
      rw [Function.update_same, Nat.testBit_or, Nat.one_shiftLeft]
      by_cases hj : 7 - p.2 % 8 = j
      · subst hj
        simp [Nat.testBit_two_pow_self, hbit]
      · simp [Nat.testBit_two_pow_of_ne hj, hj]
    · rw [Function.update_noteq (fun hc => hb hc.symm)]
      simp [hb]
  · rw [if_neg (by rw [if_neg hbit]; norm_num)]
    simp [hbit]

/-- Bit view of the whole pixel loop: a bit is set in the final array iff it
was set in the initial array or some traversed pixel contributes it. -/
theorem testBit_foldl_setBitStep (w : Nat) (data : Nat → Nat)
    (l : List (Nat × Nat)) (acc : Nat → Nat) (b j : Nat) :
    Nat.testBit ((l.foldl (setBitStep w data) acc) b) j
      ↔ (Nat.testBit (acc b) j ∨ ∃ p ∈ l, setsBit w data p b j) := by
  induction l generalizing acc with
  | nil => simp
  | cons p l ih =>
      rw [List.foldl_cons, ih, testBit_setBitStep]
      simp only [List.exists_mem_cons_iff]
      tauto

/-- Membership in the y-outer, x-inner pixel traversal. -/
theorem mem_pixelTraversal {w h : Nat} {p : Nat × Nat} :
    p ∈ pixelTraversal w h ↔ p.1 < h ∧ p.2 < w := by
  constructor
  · intro hmem
    obtain ⟨y, hy, hmem₂⟩ := List.mem_flatMap.mp hmem
    obtain ⟨x, hx, heq⟩ := List.mem_map.mp hmem₂
    rw [← heq]
    exact ⟨List.mem_range.mp hy, List.mem_range.mp hx⟩
  · intro hp
    exact List.mem_flatMap.mpr ⟨p.1, List.mem_range.mpr hp.1,
      List.mem_map.mpr ⟨p.2, List.mem_range.mpr hp.2, by simp⟩⟩

/-- Euclidean uniqueness for byte indices. -/
theorem mul_add_lt_inj {n a b c d : Nat} (hb : b < n) (hd : d < n)
    (h : a * n + b = c * n + d) : a = c ∧ b = d := by
  have hn : 0 < n := Nat.lt_of_le_of_lt (Nat.zero_le b) hb
  rw [Nat.mul_comm a n, Nat.mul_comm c n] at h
  have e1 : (n * a + b) / n = a := by
    rw [Nat.mul_add_div hn, Nat.div_eq_of_lt hb, Nat.add_zero]
  have e2 : (n * c + d) / n = c := by
    rw [Nat.mul_add_div hn, Nat.div_eq_of_lt hd, Nat.add_zero]
  have hac : a = c := by rw [← e1, ← e2, h]
  refine ⟨hac, ?_⟩
  rw [hac] at h
  exact Nat.add_left_cancel h

/-- The packed bitmap has bit `7 - x%8` of byte `y*rowBytes + x/8` set iff
pixel `(x, y)`'s channel-0 value is ≥ 128. -/
theorem testBit_packPixelData (img : ImageDataM) (x y : Nat)
    (hx : x < img.width) (hy : y < img.height) :
    Nat.testBit (packPixelData img (y * ((img.width + 7) / 8) + x / 8))
        (7 - x % 8)
      ↔ 128 ≤ img.data ((y * img.width + x) * 4) := by
  rw [packPixelData, testBit_foldl_setBitStep]
  constructor
  · rintro (hinit | ⟨p, hmem, hsets⟩)
    · simp at hinit
    · simp only [setsBit] at hsets
      obtain ⟨hdata, hbyte, hbit⟩ := hsets
      obtain ⟨hp1, hp2⟩ := mem_pixelTraversal.mp hmem
      have hdiv : p.2 / 8 < (img.width + 7) / 8 := by omega
      have hdiv' : x / 8 < (img.width + 7) / 8 := by omega
      obtain ⟨hyeq, hxdiv⟩ := mul_add_lt_inj hdiv hdiv' hbyte
      have hxmod : p.2 % 8 = x % 8 := by omega
      have hxeq : p.2 = x := by omega
      rw [← hyeq, ← hxeq]
      exact hdata
  · intro hdata
    exact Or.inr ⟨(y, x), mem_pixelTraversal.mpr ⟨hy, hx⟩, hdata, rfl, rfl⟩

/-- The XTG header is 22 bytes long. -/
theorem xtgHeaderBytes_length (img : ImageDataM) :
    (xtgHeaderBytes img).length = 22 := by
  simp [xtgHeaderBytes, le16, le32]

/-- C2: for every image of width ≥ 1 and height ≥ 1 (with a body that fits
a u32, as `setUint32` requires for the field to be exact), `imageDataToXtg`
produces 22 header bytes followed by exactly `ceil(w/8)*h = (w+7)/8*h` body
bytes, the u32 dataSize field at byte 10 (little-endian) equals that body
length, and bit `7 - x%8` of body byte `y*rowBytes + x/8` is set iff the
channel-0 value of pixel `(x, y)` is ≥ 128 (MSB-first packing). -/
theorem imageDataToXtg_spec (img : ImageDataM) (hw : 1 ≤ img.width)
    (hh : 1 ≤ img.height) (hsize : (img.width + 7) / 8 * img.height < 2 ^ 32) :
    (imageDataToXtg img).length = 22 + (img.width + 7) / 8 * img.height ∧
    readU32 (imageDataToXtg img) 10 = (img.width + 7) / 8 * img.height ∧
    ∀ x y, x < img.width → y < img.height →
      (Nat.testBit
          ((imageDataToXtg img).getD
            (22 + (y * ((img.width + 7) / 8) + x / 8)) 0) (7 - x % 8)
        ↔ 128 ≤ img.data ((y * img.width + x) * 4)) := by
  refine ⟨?_, ?_, ?_⟩
  · rw [imageDataToXtg, List.length_append, xtgHeaderBytes_length,
      List.length_map, List.length_range]
  · have h10 : readU32 (imageDataToXtg img) 10
        = (img.width + 7) / 8 * img.height % 256
          + 256 * ((img.width + 7) / 8 * img.height / 256 % 256)
          + 2 ^ 16 * ((img.width + 7) / 8 * img.height / 2 ^ 16 % 256
            + 256 * ((img.width + 7) / 8 * img.height / 2 ^ 24 % 256)) := rfl
    rw [h10]
    omega
  · intro x y hx hy
    have hrb : x / 8 < (img.width + 7) / 8 := by omega
    have hlt : y * ((img.width + 7) / 8) + x / 8 < (img.width + 7) / 8 * img.height := by
      calc y * ((img.width + 7) / 8) + x / 8
          < y * ((img.width + 7) / 8) + (img.width + 7) / 8 := by omega
        _ = (y + 1) * ((img.width + 7) / 8) := by ring
        _ ≤ img.height * ((img.width + 7) / 8) := Nat.mul_le_mul_right _ hy
        _ = (img.width + 7) / 8 * img.height := Nat.mul_comm _ _
    have hbody : (imageDataToXtg img).getD
        (22 + (y * ((img.width + 7) / 8) + x / 8)) 0
        = packPixelData img (y * ((img.width + 7) / 8) + x / 8) := by
      rw [imageDataToXtg, List.getD_append_right _ _ _ _ (by
        rw [xtgHeaderBytes_length]; omega)]
      rw [xtgHeaderBytes_length, Nat.add_sub_cancel_left,
        List.getD_eq_getElem?_getD, List.getElem?_map, List.getElem?_range hlt]
      rfl
    rw [hbody]
    exact testBit_packPixelData img x y hx hy

/-- Witness for C2 at a concrete 3×2 image whose channel-0 values are 200
when `x + y` is even and 7 otherwise. -/
theorem imageDataToXtg_spec_witness :
    1 ≤ (ImageDataM.mk 3 2 (fun i => if (i / 4) % 2 = 0 then 200 else 7)).width ∧
    (imageDataToXtg (ImageDataM.mk 3 2 (fun i => if (i / 4) % 2 = 0 then 200 else 7))).length
      = 22 + 2 ∧
    readU32 (imageDataToXtg (ImageDataM.mk 3 2 (fun i => if (i / 4) % 2 = 0 then 200 else 7))) 10
      = 2 :=
  ⟨by norm_num,
   (imageDataToXtg_spec (ImageDataM.mk 3 2 (fun i => if (i / 4) % 2 = 0 then 200 else 7))
      (by norm_num) (by norm_num) (by norm_num)).1,
   (imageDataToXtg_spec (ImageDataM.mk 3 2 (fun i => if (i / 4) % 2 = 0 then 200 else 7))
      (by norm_num) (by norm_num) (by norm_num)).2.1⟩

/-- A `le16` write is 2 bytes. -/
theorem le16_length (v : Nat) : (le16 v).length = 2 := rfl

/-- A `le32` write is 4 bytes. -/
theorem le32_length (v : Nat) : (le32 v).length = 4 := rfl

/-- A `le64` write is 8 bytes. -/
theorem le64_length (v : Nat) : (le64 v).length = 8 := rfl

/-- An index entry is 16 bytes. -/
theorem xtcIndexEntry_length (r s : Nat) : (xtcIndexEntry r s).length = 16 := by
  simp [xtcIndexEntry, le64, le32, le16]

/-- The container header is 48 bytes. -/
theorem xtcContainerHeader_length (p d : Nat) :
    (xtcContainerHeader p d).length = 48 := by
  simp [xtcContainerHeader, le64, le32, le16]

/-- The index table is 16 bytes per page. -/
theorem xtcIndexTable_length (blobs : List (List Nat)) (r : Nat) :
    (xtcIndexTable blobs r).length = 16 * blobs.length := by
  induction blobs generalizing r with
  | nil => rfl
  | cons b rest ih =>
      simp only [xtcIndexTable, List.length_append, xtcIndexEntry_length, ih,
        List.length_cons]
      ring

/-- Reading a u16 past a prefix. -/
theorem readU16_shift (l₁ l₂ : List Nat) (off : Nat) (h : l₁.length ≤ off) :
    readU16 (l₁ ++ l₂) off = readU16 l₂ (off - l₁.length) := by
  unfold readU16
  rw [List.getD_append_right _ _ _ _ h, List.getD_append_right _ _ _ _ (by omega)]
  have e : off + 1 - l₁.length = off - l₁.length + 1 := by omega
  rw [e]

/-- Reading a u32 past a prefix. -/
theorem readU32_shift (l₁ l₂ : List Nat) (off : Nat) (h : l₁.length ≤ off) :
    readU32 (l₁ ++ l₂) off = readU32 l₂ (off - l₁.length) := by
  unfold readU32
  rw [readU16_shift _ _ _ h, readU16_shift _ _ _ (by omega)]
  have e : off + 2 - l₁.length = off - l₁.length + 2 := by omega
  rw [e]

/-- Reading a u64 past a prefix. -/
theorem readU64_shift (l₁ l₂ : List Nat) (off : Nat) (h : l₁.length ≤ off) :
    readU64 (l₁ ++ l₂) off = readU64 l₂ (off - l₁.length) := by
  unfold readU64
  rw [readU32_shift _ _ _ h, readU32_shift _ _ _ (by omega)]
  have e : off + 4 - l₁.length = off - l₁.length + 4 := by omega
  rw [e]

/-- A u32 field written by `setUint32` reads back exactly when it fits. -/
theorem readU32_le32 (v : Nat) (rest : List Nat) (hv : v < 2 ^ 32) :
    readU32 (le32 v ++ rest) 0 = v := by
  have h : readU32 (le32 v ++ rest) 0
      = v % 256 + 256 * (v / 256 % 256)
        + 2 ^ 16 * (v / 2 ^ 16 % 256 + 256 * (v / 2 ^ 24 % 256)) := rfl
  rw [h]
  omega

/-- A u64 field written by `setBigUint64` reads back exactly when it fits. -/
theorem readU64_le64 (v : Nat) (rest : List Nat) (hv : v < 2 ^ 64) :
    readU64 (le64 v ++ rest) 0 = v := by
  have h : readU64 (le64 v ++ rest) 0
      = v % 256 + 256 * (v / 256 % 256)
          + 2 ^ 16 * (v / 2 ^ 16 % 256 + 256 * (v / 2 ^ 24 % 256))
        + 2 ^ 32 * (v / 2 ^ 32 % 256 + 256 * (v / 2 ^ 32 / 256 % 256)
          + 2 ^ 16 * (v / 2 ^ 32 / 2 ^ 16 % 256 + 256 * (v / 2 ^ 32 / 2 ^ 24 % 256))) := rfl
  rw [h]
  omega

/-- Index entry `i` stores, as its u64 offset field, the running accumulator
value `r + (sizes of blobs before i)`. -/
theorem xtcIndexTable_offset (blobs : List (List Nat)) (r : Nat) (tail : List Nat)
    (i : Nat) (hi : i < blobs.length)
    (hbound : r + (blobs.map List.length).sum < 2 ^ 64) :
    readU64 (xtcIndexTable blobs r ++ tail) (16 * i)
      = r + ((blobs.map List.length).take i).sum := by
  induction blobs generalizing r tail i with
  | nil => exact absurd hi (by simp)
  | cons b rest ih =>
      cases i with
      | zero =>
          simp only [xtcIndexTable, xtcIndexEntry, List.append_assoc, Nat.mul_zero]
          have hb : r < 2 ^ 64 := by
            simp only [List.map_cons, List.sum_cons] at hbound
            omega
          rw [readU64_le64 r _ hb]
          simp
      | succ i =>
          simp only [xtcIndexTable, List.append_assoc]
          rw [readU64_shift _ _ _ (by rw [xtcIndexEntry_length]; omega),
            xtcIndexEntry_length]
          have e : 16 * (i + 1) - 16 = 16 * i := by omega
          rw [e, ih (r + b.length) tail i (by simpa using hi) (by
            simp only [List.map_cons, List.sum_cons] at hbound
            omega)]
          simp only [List.map_cons, List.take_succ_cons, List.sum_cons]
          omega

/-- Index entry `i` stores, as its u32 size field, blob `i`'s byte length. -/
theorem xtcIndexTable_size (blobs : List (List Nat)) (r : Nat) (tail : List Nat)
    (i : Nat) (hi : i < blobs.length)
    (hsizes : ∀ b ∈ blobs, b.length < 2 ^ 32) :
    readU32 (xtcIndexTable blobs r ++ tail) (16 * i + 8)
      = (blobs.map List.length).getD i 0 := by
  induction blobs generalizing r tail i with
  | nil => exact absurd hi (by simp)
  | cons b rest ih =>
      cases i with
      | zero =>
          simp only [xtcIndexTable, xtcIndexEntry, List.append_assoc, Nat.mul_zero,
            Nat.zero_add]
          rw [readU32_shift (le64 r) _ _ (by rw [le64_length]), le64_length]
          have e : 8 - 8 = 0 := rfl
          rw [e, readU32_le32 b.length _ (hsizes b (List.mem_cons_self _ _))]
          rfl
      | succ i =>
          simp only [xtcIndexTable, List.append_assoc]
          rw [readU32_shift _ _ _ (by rw [xtcIndexEntry_length]; omega),
            xtcIndexEntry_length]
          have e : 16 * (i + 1) + 8 - 16 = 16 * i + 8 := by omega
          rw [e, ih (r + b.length) tail i (by simpa using hi)
            (fun bb hbb => hsizes bb (List.mem_cons_of_mem _ hbb))]
          rfl

/-- Prefix sums are bounded by the whole sum. -/
theorem sum_take_le (l : List Nat) (k : Nat) : (l.take k).sum ≤ l.sum := by
  conv_rhs => rw [← List.take_append_drop k l]
  rw [List.sum_append]
  omega

/-- Prefix-sum step via `getD`. -/
theorem sum_take_succ_getD (l : List Nat) (i : Nat) (hi : i < l.length) :
    (l.take (i + 1)).sum = (l.take i).sum + l.getD i 0 := by
  induction l generalizing i with
  | nil => simp at hi
  | cons a l ih =>
      cases i with
      | zero => simp
      | succ i =>
          simp only [List.take_succ_cons, List.sum_cons,
            ih i (by simpa using hi), List.getD_cons_succ]
          omega

/-- The container header split before its indexOffset field (24 bytes of
magic, version, pageCount, flags and currentPage plus the metadataOffset
u64). -/
theorem xtcContainerHeader_split24 (p d : Nat) :
    xtcContainerHeader p d
      = ([0x58, 0x54, 0x43, 0x00] ++ le16 1 ++ le16 p ++ [0, 0, 0, 0] ++ le32 0
          ++ le64 0) ++ (le64 48 ++ (le64 d ++ le64 0)) := by
  simp [xtcContainerHeader, List.append_assoc]

/-- The container header split before its dataOffset field. -/
theorem xtcContainerHeader_split32 (p d : Nat) :
    xtcContainerHeader p d
      = (([0x58, 0x54, 0x43, 0x00] ++ le16 1 ++ le16 p ++ [0, 0, 0, 0] ++ le32 0
          ++ le64 0) ++ le64 48) ++ (le64 d ++ le64 0) := by
  simp [xtcContainerHeader, List.append_assoc]

/-- The indexOffset field (u64 at byte 24) of any built container is 48. -/
theorem readU64_header_24 (p d : Nat) (X : List Nat) :
    readU64 (xtcContainerHeader p d ++ X) 24 = 48 := by
  rw [xtcContainerHeader_split24, List.append_assoc]
  rw [readU64_shift _ _ _ (by simp [le16, le32, le64])]
  have e : 24 - ([0x58, 0x54, 0x43, 0x00] ++ le16 1 ++ le16 p ++ [0, 0, 0, 0]
      ++ le32 0 ++ le64 0).length = 0 := by simp [le16, le32, le64]
  rw [e, List.append_assoc, readU64_le64 48 _ (by norm_num)]

/-- The dataOffset field (u64 at byte 32) reads back exactly when it fits. -/
theorem readU64_header_32 (p d : Nat) (X : List Nat) (hd : d < 2 ^ 64) :
    readU64 (xtcContainerHeader p d ++ X) 32 = d := by
  rw [xtcContainerHeader_split32, List.append_assoc]
  rw [readU64_shift _ _ _ (by simp [le16, le32, le64])]
  have e : 32 - (([0x58, 0x54, 0x43, 0x00] ++ le16 1 ++ le16 p ++ [0, 0, 0, 0]
      ++ le32 0 ++ le64 0) ++ le64 48).length = 0 := by simp [le16, le32, le64]
  rw [e, List.append_assoc, readU64_le64 d _ hd]

set_option maxHeartbeats 1600000 in
/-- C1 counterexample: for the one-element list holding the XTG encoding of
a 1×1 all-bright image (23 bytes), the container's single index entry stores
offset 64 = dataOffset (an absolute file offset), not 0 (the sum of the
lengths of the preceding pages), and `offset + size = 87 > 23 =
totalBufferLength − dataOffset`, refuting both offset sub-claims as
stated. -/
theorem buildXtc_offset_not_relative :
    readU64 (buildXtc [imageDataToXtg (ImageDataM.mk 1 1 (fun _ => 200))]) 48 = 64 ∧
    ¬ readU64 (buildXtc [imageDataToXtg (ImageDataM.mk 1 1 (fun _ => 200))]) 48 = 0 ∧
    ¬ (readU64 (buildXtc [imageDataToXtg (ImageDataM.mk 1 1 (fun _ => 200))]) 48
        + readU32 (buildXtc [imageDataToXtg (ImageDataM.mk 1 1 (fun _ => 200))]) 56
      ≤ (buildXtc [imageDataToXtg (ImageDataM.mk 1 1 (fun _ => 200))]).length
        - readU64 (buildXtc [imageDataToXtg (ImageDataM.mk 1 1 (fun _ => 200))]) 32) := by
  refine ⟨by decide, by decide, by decide⟩

/-- C1 (amended): for every non-empty blob list (with pageCount fitting u16,
sizes fitting u32 and the total fitting u64, as the DataView writes
require), the container satisfies: dataOffset (u64 at 32) =
indexOffset + pageCount·16 with indexOffset = 48 (u64 at 24), pageCount
(u16 at 6) = number of index entries, entry i's u64 offset field is the
ABSOLUTE file offset dataOffset + (sum of the lengths of pages 0..i−1), its
u32 size field is page i's length, and offset + size ≤ totalBufferLength. -/
theorem buildXtc_structure (xtgBlobs : List (List Nat))
    (hne : xtgBlobs ≠ [])
    (hcount : xtgBlobs.length < 2 ^ 16)
    (hsizes : ∀ b ∈ xtgBlobs, b.length < 2 ^ 32)
    (htotal : 48 + xtgBlobs.length * 16 + (xtgBlobs.map List.length).sum < 2 ^ 64) :
    (buildXtc xtgBlobs).length
        = 48 + xtgBlobs.length * 16 + (xtgBlobs.map List.length).sum ∧
    readU16 (buildXtc xtgBlobs) 6 = xtgBlobs.length ∧
    readU64 (buildXtc xtgBlobs) 24 = 48 ∧
    readU64 (buildXtc xtgBlobs) 32 = 48 + xtgBlobs.length * 16 ∧
    (∀ i, i < xtgBlobs.length →
      readU64 (buildXtc xtgBlobs) (48 + 16 * i)
        = (48 + xtgBlobs.length * 16) + ((xtgBlobs.map List.length).take i).sum) ∧
    (∀ i, i < xtgBlobs.length →
      readU32 (buildXtc xtgBlobs) (48 + 16 * i + 8)
        = (xtgBlobs.map List.length).getD i 0) ∧
    (∀ i, i < xtgBlobs.length →
      readU64 (buildXtc xtgBlobs) (48 + 16 * i)
          + readU32 (buildXtc xtgBlobs) (48 + 16 * i + 8)
        ≤ (buildXtc xtgBlobs).length) := by
  have hlen : (buildXtc xtgBlobs).length
      = 48 + xtgBlobs.length * 16 + (xtgBlobs.map List.length).sum := by
    rw [buildXtc, List.length_append, List.length_append, xtcContainerHeader_length,
      xtcIndexTable_length, List.length_flatten]
    ring
  have hoff : ∀ i, i < xtgBlobs.length →
      readU64 (buildXtc xtgBlobs) (48 + 16 * i)
        = (48 + xtgBlobs.length * 16) + ((xtgBlobs.map List.length).take i).sum := by
    intro i hi
    rw [buildXtc, readU64_shift _ _ _ (by rw [xtcContainerHeader_length]; omega),
      xtcContainerHeader_length]
    have e : 48 + 16 * i - 48 = 16 * i := by omega
    rw [e]
    exact xtcIndexTable_offset xtgBlobs _ _ i hi (by omega)
  have hsizeF : ∀ i, i < xtgBlobs.length →
      readU32 (buildXtc xtgBlobs) (48 + 16 * i + 8)
        = (xtgBlobs.map List.length).getD i 0 := by
    intro i hi
    rw [buildXtc, readU32_shift _ _ _ (by rw [xtcContainerHeader_length]; omega),
      xtcContainerHeader_length]
    have e : 48 + 16 * i + 8 - 48 = 16 * i + 8 := by omega
    rw [e]
    exact xtcIndexTable_size xtgBlobs _ _ i hi hsizes
  refine ⟨hlen, ?_, ?_, ?_, hoff, hsizeF, ?_⟩
  · have h6 : readU16 (buildXtc xtgBlobs) 6
        = xtgBlobs.length % 256 + 256 * (xtgBlobs.length / 256 % 256) := rfl
    rw [h6]
    omega
  · exact readU64_header_24 _ _ _
  · exact readU64_header_32 _ _ _ (by omega)
  · intro i hi
    rw [hoff i hi, hsizeF i hi, hlen]
    have hmaplen : (xtgBlobs.map List.length).length = xtgBlobs.length := by simp
    have hstep := sum_take_succ_getD (xtgBlobs.map List.length) i (by omega)
    have hle := sum_take_le (xtgBlobs.map List.length) (i + 1)
    omega

/-- Witness for the amended C1 at a concrete two-page container. -/
theorem buildXtc_structure_witness :
    ([[1, 2, 3], [4]] : List (List Nat)) ≠ [] ∧
    (buildXtc [[1, 2, 3], [4]]).length = 48 + 2 * 16 + 4 ∧
    readU16 (buildXtc [[1, 2, 3], [4]]) 6 = 2 ∧
    readU64 (buildXtc [[1, 2, 3], [4]]) 32 = 48 + 2 * 16 ∧
    readU64 (buildXtc [[1, 2, 3], [4]]) (48 + 16 * 1) = (48 + 2 * 16) + 3 :=
  ⟨by decide,
   (buildXtc_structure [[1, 2, 3], [4]] (by decide) (by decide) (by decide)
      (by decide)).1,
   (buildXtc_structure [[1, 2, 3], [4]] (by decide) (by decide) (by decide)
      (by decide)).2.1,
   (buildXtc_structure [[1, 2, 3], [4]] (by decide) (by decide) (by decide)
      (by decide)).2.2.2.1,
   (buildXtc_structure [[1, 2, 3], [4]] (by decide) (by decide) (by decide)
      (by decide)).2.2.2.2.1 1 (by decide)⟩

/-- Lexicographic order is preserved under a common prefix. -/
theorem lex_append_left (c s₁ s₂ : List Nat) (h : List.Lex (· < ·) s₁ s₂) :
    List.Lex (· < ·) (c ++ s₁) (c ++ s₂) := by
  induction c with
  | nil => exact h
  | cons a c ih => exact List.Lex.cons ih

/-- Lexicographic order of equal-length prefixes decides the whole
comparison, whatever follows. -/
theorem lex_of_prefix_lt : ∀ (p₁ p₂ s₁ s₂ : List Nat), p₁.length = p₂.length →
    List.Lex (· < ·) p₁ p₂ → List.Lex (· < ·) (p₁ ++ s₁) (p₂ ++ s₂) := by
  intro p₁
  induction p₁ with
  | nil =>
      intro p₂ s₁ s₂ hlen h
      cases h with
      | nil => simp at hlen
  | cons a as ih =>
      intro p₂ s₁ s₂ hlen h
      cases p₂ with
      | nil => cases h
      | cons b bs =>
          cases h with
          | rel hab => exact List.Lex.rel hab
          | cons htail => exact List.Lex.cons (ih bs s₁ s₂ (by simpa using hlen) htail)

/-- Smaller page numbers give lexicographically smaller padded prefixes. -/
theorem padStart4Zero_lex (p q : Nat) (hpq : p < q) (hq : q ≤ 9999) :
    List.Lex (· < ·) (padStart4Zero p) (padStart4Zero q) := by
  rw [padStart4Zero, padStart4Zero]
  rcases Nat.lt_trichotomy (p / 1000 % 10) (q / 1000 % 10) with h1 | h1 | h1
  · exact List.Lex.rel (by omega)
  · rw [h1]
    apply List.Lex.cons
    rcases Nat.lt_trichotomy (p / 100 % 10) (q / 100 % 10) with h2 | h2 | h2
    · exact List.Lex.rel (by omega)
    · rw [h2]
      apply List.Lex.cons
      rcases Nat.lt_trichotomy (p / 10 % 10) (q / 10 % 10) with h3 | h3 | h3
      · exact List.Lex.rel (by omega)
      · rw [h3]
        apply List.Lex.cons
        exact List.Lex.rel (by omega)
      · exact (by omega : False).elim
    · exact (by omega : False).elim
  · exact (by omega : False).elim

/-- Any name of an earlier page precedes any name of a later page
(≤ 9999), whatever the kinds and labels. -/
theorem outputName_lex_of_page_lt (p q kp kq : Nat) (lp lq : List Nat)
    (hpq : p < q) (hq : q ≤ 9999) :
    List.Lex (· < ·) (outputName p kp lp) (outputName q kq lq) := by
  unfold outputName
  exact lex_of_prefix_lt _ _ _ _ (by rfl) (padStart4Zero_lex p q hpq hq)

/-- Within a page and kind, the label suffix decides the order. -/
theorem outputName_lex_label (p k : Nat) (l₁ l₂ : List Nat)
    (h : List.Lex (· < ·) (l₁ ++ [46, 112, 110, 103]) (l₂ ++ [46, 112, 110, 103])) :
    List.Lex (· < ·) (outputName p k l₁) (outputName p k l₂) := by
  unfold outputName
  exact lex_append_left _ _ _ (lex_append_left _ _ _ h)

/-- Every name a page generates is an `outputName` of that page number. -/
theorem pageOutputNames_names {m : PageMode} {p : Nat} {b : List Nat}
    (hb : b ∈ pageOutputNames m p) : ∃ k l, b = outputName p k l := by
  cases m with
  | portrait =>
      refine ⟨0, [112, 97, 103, 101], ?_⟩
      simpa [pageOutputNames] using hb
  | spread =>
      refine ⟨0, [115, 112, 114, 101, 97, 100], ?_⟩
      simpa [pageOutputNames] using hb
  | half =>
      rcases (by simpa [pageOutputNames] using hb :
          b = outputName p 2 [97] ∨ b = outputName p 2 [98]) with hb | hb
      · exact ⟨2, [97], hb⟩
      · exact ⟨2, [98], hb⟩
  | overlap c =>
      obtain ⟨i, _, rfl⟩ := List.mem_map.mp hb
      exact ⟨3, [97 + i], rfl⟩

/-- The names one page generates are strictly increasing. -/
theorem pageOutputNames_pairwise (m : PageMode) (p : Nat) :
    List.Pairwise (fun a b => List.Lex (· < ·) a b) (pageOutputNames m p) := by
  cases m with
  | portrait => simp [pageOutputNames]
  | spread => simp [pageOutputNames]
  | half =>
      refine List.Pairwise.cons (fun b hb => ?_) (List.pairwise_singleton _ _)
      have hb' : b = outputName p 2 [98] := by simpa [pageOutputNames] using hb
      subst hb'
      exact outputName_lex_label p 2 [97] [98] (List.Lex.rel (by norm_num))
  | overlap c =>
      refine List.Pairwise.map _ ?_ (List.pairwise_lt_range c)
      intro i j hij
      exact outputName_lex_label p 3 [97 + i] [97 + j] (List.Lex.rel (by omega))

/-- Every name generated from page `s` on belongs to a page in
`[s, s + #modes)`. -/
theorem mem_generatedNamesFrom {b : List Nat} : ∀ {s : Nat} {modes : List PageMode},
    b ∈ generatedNamesFrom s modes →
    ∃ q k l, s ≤ q ∧ q < s + modes.length ∧ b = outputName q k l := by
  intro s modes
  induction modes generalizing s with
  | nil => intro hb; simp [generatedNamesFrom] at hb
  | cons m rest ih =>
      intro hb
      rcases List.mem_append.mp (by simpa [generatedNamesFrom] using hb) with hb | hb
      · obtain ⟨k, l, rfl⟩ := pageOutputNames_names hb
        exact ⟨s, k, l, le_refl s, by simp, rfl⟩
      · obtain ⟨q, k, l, hq1, hq2, rfl⟩ := ih hb
        refine ⟨q, k, l, by omega, ?_, rfl⟩
        simp only [List.length_cons]
        omega

/-- The whole generated name sequence is strictly increasing when every page
number stays ≤ 9999. -/
theorem generatedNamesFrom_pairwise : ∀ (modes : List PageMode) (s : Nat),
    1 ≤ s → s + modes.length ≤ 10000 →
    List.Pairwise (fun a b => List.Lex (· < ·) a b) (generatedNamesFrom s modes) := by
  intro modes
  induction modes with
  | nil => intro s _ _; exact List.Pairwise.nil
  | cons m rest ih =>
      intro s h1 h2
      simp only [List.length_cons] at h2
      show List.Pairwise _ (pageOutputNames m s ++ generatedNamesFrom (s + 1) rest)
      apply List.pairwise_append.mpr
      refine ⟨pageOutputNames_pairwise m s, ih (s + 1) (by omega) (by omega), ?_⟩
      intro a ha b hb
      obtain ⟨k, l, rfl⟩ := pageOutputNames_names ha
      obtain ⟨q, k2, l2, hq1, hq2, rfl⟩ := mem_generatedNamesFrom hb
      exact outputName_lex_of_page_lt s q k k2 l l2 (by omega) (by omega)

/-- C4: the final page order is the lexicographic sort of the output names
and nothing else — for ANY payload list whose names are a permutation of the
pipeline-generated names (any completion order), the name ordering after
`finalizeConversionResult`'s sort equals the generation order: ascending
page number, then segment letter. -/
theorem sortPagesByName_generated {α : Type} (modes : List PageMode)
    (pages : List (List Nat × α)) (hcount : modes.length ≤ 9999)
    (hperm : (pages.map Prod.fst).Perm (generatedNames modes)) :
    (sortPagesByName pages).map Prod.fst = generatedNames modes := by
  have hpairs : List.Pairwise (fun a b => List.Lex (· < ·) a b) (generatedNames modes) :=
    generatedNamesFrom_pairwise modes 1 (le_refl 1) (by omega)
  have hsorted₁ : (generatedNames modes).Sorted (· ≤ ·) :=
    hpairs.imp (fun hab => le_of_lt hab)
  have hperm₂ : ((sortPagesByName pages).map Prod.fst).Perm (generatedNames modes) :=
    ((List.perm_insertionSort _ pages).map Prod.fst).trans hperm
  have hsorted₂ : ((sortPagesByName pages).map Prod.fst).Sorted (· ≤ ·) := by
    have hs := List.sorted_insertionSort (fun x y : List Nat × α => x.1 ≤ y.1) pages
    exact List.Pairwise.map _ (fun {a b} h => h) hs
  exact List.eq_of_perm_of_sorted hperm₂ hsorted₂ hsorted₁

/-- Witness for C4: one half-split page then one spread page, submitted in a
scrambled completion order ("0002_0_spread.png", "0001_2_a.png",
"0001_2_b.png"), sorts back to generation order. -/
theorem sortPagesByName_generated_witness :
    (([(outputName 2 0 [115, 112, 114, 101, 97, 100], (30 : Nat)),
        (outputName 1 2 [97], 10), (outputName 1 2 [98], 20)].map Prod.fst).Perm
      (generatedNames [PageMode.half, PageMode.spread])) ∧
    (sortPagesByName
        [(outputName 2 0 [115, 112, 114, 101, 97, 100], (30 : Nat)),
         (outputName 1 2 [97], 10), (outputName 1 2 [98], 20)]).map Prod.fst
      = generatedNames [PageMode.half, PageMode.spread] :=
  ⟨by decide,
   sortPagesByName_generated [PageMode.half, PageMode.spread]
     [(outputName 2 0 [115, 112, 114, 101, 97, 100], (30 : Nat)),
      (outputName 1 2 [97], 10), (outputName 1 2 [98], 20)]
     (by norm_num) (by decide)⟩

/-- Updating one slot exchanges its `inflight` contribution. -/
theorem inflight_update (lanes j : Nat) (hj : j < lanes) (slots : Nat → SlotPhase)
    (ph : SlotPhase) (i : Nat) :
    inflight lanes (Function.update slots j ph) i
        + (if slotHolds (slots j) i then 1 else 0)
      = inflight lanes slots i + (if slotHolds ph i then 1 else 0) := by
  unfold inflight
  have hmem : j ∈ Finset.range lanes := Finset.mem_range.mpr hj
  rw [← Finset.sum_erase_add (Finset.range lanes)
      (fun x => if slotHolds (Function.update slots j ph x) i then 1 else 0) hmem,
    ← Finset.sum_erase_add (Finset.range lanes)
      (fun x => if slotHolds (slots x) i then 1 else 0) hmem]
  have hcong : (∑ x in (Finset.range lanes).erase j,
        if slotHolds (Function.update slots j ph x) i then 1 else 0)
      = ∑ x in (Finset.range lanes).erase j,
        if slotHolds (slots x) i then 1 else 0 := by
    apply Finset.sum_congr rfl
    intro x hx
    rw [Function.update_noteq (Finset.ne_of_mem_erase hx)]
  rw [hcong, Function.update_same]
  ring

/-- A holding slot witnesses a positive `inflight`. -/
theorem inflight_pos (lanes j : Nat) (hj : j < lanes) (slots : Nat → SlotPhase)
    (i : Nat) (h : slotHolds (slots j) i = true) :
    1 ≤ inflight lanes slots i := by
  unfold inflight
  have hmem : j ∈ Finset.range lanes := Finset.mem_range.mpr hj
  rw [← Finset.sum_erase_add (Finset.range lanes)
      (fun x => if slotHolds (slots x) i then 1 else 0) hmem, h]
  simp

/-- When every slot has returned, nothing is in flight. -/
theorem inflight_terminal (lanes : Nat) (slots : Nat → SlotPhase)
    (hterm : ∀ j, j < lanes → slots j = SlotPhase.done) (i : Nat) :
    inflight lanes slots i = 0 := by
  unfold inflight
  apply Finset.sum_eq_zero
  intro j hjmem
  rw [hterm j (Finset.mem_range.mp hjmem)]
  rfl

/-- Invariant preservation for a step that only swaps a slot's phase for
one holding the same indices (and possibly flips the disabled flag). -/
theorem schedInv_phaseSwap (total lanes : Nat) (s : SchedState) (j : Nat)
    (hj : j < lanes) (ph : SlotPhase) (d : Bool)
    (hhold : ∀ i, slotHolds ph i = slotHolds (s.slots j) i)
    (h0 : j ≠ 0 ∨ ph ≠ SlotPhase.done)
    (hinv : SchedInv total lanes s) :
    SchedInv total lanes
      { s with workerDisabled := d, slots := Function.update s.slots j ph } := by
  obtain ⟨h1, h2, h3, h4⟩ := hinv
  have hinf : ∀ i, inflight lanes (Function.update s.slots j ph) i
      = inflight lanes s.slots i := by
    intro i
    have hu := inflight_update lanes j hj s.slots ph i
    rw [hhold i] at hu
    omega
  refine ⟨?_, ?_, ?_, ?_⟩
  · intro i hi1 hi2
    dsimp only at hi1 ⊢
    rw [hinf i]
    exact h1 i hi1 hi2
  · intro i hi
    dsimp only at hi ⊢
    rw [hinf i]
    exact h2 i hi
  · intro i hi
    dsimp only
    rw [hinf i]
    exact h3 i hi
  · intro hdone
    dsimp only at hdone ⊢
    rcases h0 with h0 | h0
    · rw [Function.update_noteq (fun hc => h0 hc.symm)] at hdone
      exact h4 hdone
    · by_cases hj0 : (0 : Nat) = j
      · rw [← hj0, Function.update_same] at hdone
        · exact absurd hdone h0
      · rw [Function.update_noteq hj0] at hdone
        exact h4 hdone

/-- A phase holds at most one index. -/
theorem slotHolds_unique {ph : SlotPhase} {i m : Nat} (h : slotHolds ph i = true)
    (hne : m ≠ i) : slotHolds ph m = false := by
  cases ph with
  | working k =>
      simp only [slotHolds, beq_iff_eq] at h
      simp only [slotHolds, beq_eq_false_iff_ne, ne_eq]
      omega
  | fallback k =>
      simp only [slotHolds, beq_iff_eq] at h
      simp only [slotHolds, beq_eq_false_iff_ne, ne_eq]
      omega
  | ready => simp [slotHolds] at h
  | done => simp [slotHolds] at h

/-- Invariant preservation for a slot storing its results: the held index
gains its (unique) write and stops being in flight. -/
theorem schedInv_write (total lanes : Nat) (s : SchedState) (j i : Nat)
    (hj : j < lanes) (hhold : slotHolds (s.slots j) i = true)
    (hinv : SchedInv total lanes s) :
    SchedInv total lanes
      { s with slots := Function.update s.slots j SlotPhase.ready,
               writes := Function.update s.writes i (s.writes i + 1) } := by
  obtain ⟨h1, h2, h3, h4⟩ := hinv
  have hpos := inflight_pos lanes j hj s.slots i hhold
  have hi_next : i < s.nextIndex := by
    by_contra hc
    have := (h2 i (by omega)).2
    omega
  have hi_total : i < total := by
    by_contra hc
    have := (h3 i (by omega)).2
    omega
  have hinf : ∀ m, inflight lanes (Function.update s.slots j SlotPhase.ready) m
      + (if slotHolds (s.slots j) m then 1 else 0) = inflight lanes s.slots m := by
    intro m
    have hu := inflight_update lanes j hj s.slots SlotPhase.ready m
    simpa using hu
  refine ⟨?_, ?_, ?_, ?_⟩
  · intro m hm1 hm2
    dsimp only at hm1 ⊢
    have hu := hinf m
    by_cases hmi : m = i
    · subst hmi
      rw [Function.update_same]
      rw [hhold] at hu
      simp only [if_true, eq_self_iff_true] at hu
      have := h1 m hm1 hm2
      omega
    · rw [Function.update_noteq hmi]
      rw [slotHolds_unique hhold hmi] at hu
      simp only [Bool.false_eq_true, if_false] at hu
      have := h1 m hm1 hm2
      omega
  · intro m hm
    dsimp only at hm ⊢
    have hu := hinf m
    have hmi : m ≠ i := by omega
    rw [Function.update_noteq hmi]
    rw [slotHolds_unique hhold hmi] at hu
    simp only [Bool.false_eq_true, if_false] at hu
    have := h2 m hm
    constructor
    · exact this.1
    · omega
  · intro m hm
    dsimp only
    have hu := hinf m
    have hmi : m ≠ i := by omega
    rw [Function.update_noteq hmi]
    rw [slotHolds_unique hhold hmi] at hu
    simp only [Bool.false_eq_true, if_false] at hu
    have := h3 m hm
    constructor
    · exact this.1
    · omega
  · intro hdone
    dsimp only at hdone ⊢
    by_cases hj0 : (0 : Nat) = j
    · rw [← hj0, Function.update_same] at hdone
      cases hdone
    · rw [Function.update_noteq hj0] at hdone
      exact h4 hdone

/-- Invariant preservation for pulling a fresh index into a slot. -/
theorem schedInv_pullWork (total lanes : Nat) (s : SchedState) (j : Nat)
    (hj : j < lanes) (hs : s.slots j = SlotPhase.ready) (hlt : s.nextIndex < total)
    (hinv : SchedInv total lanes s) :
    SchedInv total lanes
      { s with nextIndex := s.nextIndex + 1,
               slots := Function.update s.slots j (SlotPhase.working s.nextIndex) } := by
  obtain ⟨h1, h2, h3, h4⟩ := hinv
  have hinf : ∀ m, inflight lanes (Function.update s.slots j (SlotPhase.working s.nextIndex)) m
      = inflight lanes s.slots m
        + (if slotHolds (SlotPhase.working s.nextIndex) m then 1 else 0) := by
    intro m
    have hu := inflight_update lanes j hj s.slots (SlotPhase.working s.nextIndex) m
    rw [hs] at hu
    simpa using hu
  refine ⟨?_, ?_, ?_, ?_⟩
  · intro m hm1 hm2
    dsimp only at hm1 ⊢
    rw [hinf m]
    by_cases hmn : m = s.nextIndex
    · subst hmn
      have := h2 s.nextIndex (le_refl _)
      simp only [slotHolds, beq_self_eq_true, eq_self_iff_true, if_true]
      omega
    · have hmlt : m < s.nextIndex := by omega
      have hold : slotHolds (SlotPhase.working s.nextIndex) m = false := by
        simp only [slotHolds, beq_eq_false_iff_ne, ne_eq]
        omega
      rw [hold]
      simp only [Bool.false_eq_true, if_false]
      have := h1 m hmlt hm2
      omega
  · intro m hm
    dsimp only at hm ⊢
    rw [hinf m]
    have hold : slotHolds (SlotPhase.working s.nextIndex) m = false := by
      simp only [slotHolds, beq_eq_false_iff_ne, ne_eq]
      omega
    rw [hold]
    simp only [Bool.false_eq_true, if_false]
    have := h2 m (by omega)
    constructor
    · exact this.1
    · omega
  · intro m hm
    dsimp only
    rw [hinf m]
    have hold : slotHolds (SlotPhase.working s.nextIndex) m = false := by
      simp only [slotHolds, beq_eq_false_iff_ne, ne_eq]
      omega
    rw [hold]
    simp only [Bool.false_eq_true, if_false]
    have := h3 m hm
    constructor
    · exact this.1
    · omega
  · intro hdone
    dsimp only at hdone ⊢
    by_cases hj0 : (0 : Nat) = j
    · rw [← hj0, Function.update_same] at hdone
      cases hdone
    · rw [Function.update_noteq hj0] at hdone
      have := h4 hdone
      omega

/-- Invariant preservation for a slot returning at the end of the input. -/
theorem schedInv_pullExit (total lanes : Nat) (s : SchedState) (j : Nat)
    (hj : j < lanes) (hs : s.slots j = SlotPhase.ready) (hge : total ≤ s.nextIndex)
    (hinv : SchedInv total lanes s) :
    SchedInv total lanes
      { s with nextIndex := s.nextIndex + 1,
               slots := Function.update s.slots j SlotPhase.done } := by
  obtain ⟨h1, h2, h3, h4⟩ := hinv
  have hinf : ∀ m, inflight lanes (Function.update s.slots j SlotPhase.done) m
      = inflight lanes s.slots m := by
    intro m
    have hu := inflight_update lanes j hj s.slots SlotPhase.done m
    rw [hs] at hu
    simpa using hu
  refine ⟨?_, ?_, ?_, ?_⟩
  · intro m hm1 hm2
    dsimp only at hm1 ⊢
    rw [hinf m]
    exact h1 m (by omega) hm2
  · intro m hm
    dsimp only at hm ⊢
    rw [hinf m]
    exact h2 m (by omega)
  · intro m hm
    dsimp only
    rw [hinf m]
    exact h3 m hm
  · intro _
    dsimp only
    omega

/-- One step preserves the scheduler invariant. -/
theorem schedInv_step (total lanes : Nat) (s s' : SchedState)
    (hstep : SchedStep total lanes s s') (hinv : SchedInv total lanes s) :
    SchedInv total lanes s' := by
  cases hstep with
  | exitDisabled j hj hj0 hd hs =>
      exact schedInv_phaseSwap total lanes s j hj SlotPhase.done s.workerDisabled
        (fun i => by rw [hs]; rfl) (Or.inl (by omega)) hinv
  | pullExit j hj hok hs hge =>
      exact schedInv_pullExit total lanes s j hj hs hge hinv
  | pullWork j hj hok hs hlt =>
      exact schedInv_pullWork total lanes s j hj hs hlt hinv
  | workerOk j i hj hs hd =>
      exact schedInv_write total lanes s j i hj (by rw [hs]; simp [slotHolds]) hinv
  | workerFail j i hj hs hd =>
      exact schedInv_phaseSwap total lanes s j hj (SlotPhase.fallback i) true
        (fun m => by rw [hs]; rfl) (Or.inr (by simp)) hinv
  | skipWorker j i hj hs hd =>
      exact schedInv_phaseSwap total lanes s j hj (SlotPhase.fallback i) s.workerDisabled
        (fun m => by rw [hs]; rfl) (Or.inr (by simp)) hinv
  | fallbackDone j i hj hs =>
      exact schedInv_write total lanes s j i hj (by rw [hs]; simp [slotHolds]) hinv

/-- The invariant holds at the start and hence in every reachable state. -/
theorem schedInv_reach (total lanes : Nat) (s : SchedState)
    (h : SchedReach total lanes initSched s) : SchedInv total lanes s := by
  have hready : ∀ i, inflight lanes initSched.slots i = 0 := by
    intro i
    apply Finset.sum_eq_zero
    intro j _
    rfl
  induction h with
  | refl =>
      refine ⟨?_, ?_, ?_, ?_⟩
      · intro i hi _
        simp [initSched] at hi
      · intro i _
        exact ⟨rfl, hready i⟩
      · intro i _
        exact ⟨rfl, hready i⟩
      · intro hdone
        exact absurd hdone (by simp [initSched])
  | tail _ hbc ih => exact schedInv_step _ _ _ _ hbc ih

/-- The `workerDisabled` flag is sticky: no step ever clears it. -/
theorem workerDisabled_sticky (total lanes : Nat) {s s' : SchedState}
    (h : SchedReach total lanes s s') (hd : s.workerDisabled = true) :
    s'.workerDisabled = true := by
  induction h with
  | refl => exact hd
  | tail _ hbc ih =>
      cases hbc with
      | exitDisabled j hj hj0 hd2 hs => exact ih
      | pullExit j hj hok hs hge => exact ih
      | pullWork j hj hok hs hlt => exact ih
      | workerOk j i hj hs hd2 => exact ih
      | workerFail j i hj hs hd2 => rfl
      | skipWorker j i hj hs hd2 => exact ih
      | fallbackDone j i hj hs => exact ih

/-- Once the pool is disabled, no slot other than slot 0 starts working on a
new page: any `working` phase a slot `j > 0` has after a step it already had
before it. -/
theorem no_new_work_when_disabled (total lanes : Nat) {s s' : SchedState}
    (hstep : SchedStep total lanes s s') (hd : s.workerDisabled = true)
    (j : Nat) (hj0 : 0 < j) (i : Nat)
    (hw : s'.slots j = SlotPhase.working i) : s.slots j = SlotPhase.working i := by
  cases hstep with
  | exitDisabled js hj hj0s hds hss =>
      dsimp only at hw
      by_cases hjj : j = js
      · subst hjj
        rw [Function.update_same] at hw
        cases hw
      · rw [Function.update_noteq hjj] at hw
        exact hw
  | pullExit js hj hok hss hge =>
      dsimp only at hw
      by_cases hjj : j = js
      · subst hjj
        rw [Function.update_same] at hw
        cases hw
      · rw [Function.update_noteq hjj] at hw
        exact hw
  | pullWork js hj hok hss hlt =>
      have hjs : js = 0 := by
        rcases hok with h | h
        · rw [hd] at h
          cases h
        · exact h
      have hne : j ≠ js := by omega
      dsimp only at hw
      rw [Function.update_noteq hne] at hw
      exact hw
  | workerOk js is hj hss hds =>
      rw [hd] at hds
      cases hds
  | workerFail js is hj hss hds =>
      rw [hd] at hds
      cases hds
  | skipWorker js is hj hss hds =>
      dsimp only at hw
      by_cases hjj : j = js
      · subst hjj
        rw [Function.update_same] at hw
        cases hw
      · rw [Function.update_noteq hjj] at hw
        exact hw
  | fallbackDone js is hj hss =>
      dsimp only at hw
      by_cases hjj : j = js
      · subst hjj
        rw [Function.update_same] at hw
        cases hw
      · rw [Function.update_noteq hjj] at hw
        exact hw

/-- C5: sticky fallback of `processArchiveSourcePages`.  In every reachable
scheduler state: (1) once a worker-pool job has failed (`workerDisabled`
set), the pool stays torn down for the remainder of the batch; (2) while
disabled, no slot other than the main-thread slot 0 starts working on a new
page — processing continues sequentially on slot 0 (including the failing
page, which the failing slot finishes in-process via its fallback phase);
and (3) when all slots have returned, every one of the `total` source pages
has received exactly one entry in the results-by-index array, and no other
index was ever written. -/
theorem stickyFallback_spec (total lanes : Nat) (hlanes : 0 < lanes)
    (s : SchedState) (hreach : SchedReach total lanes initSched s) :
    (∀ s', SchedReach total lanes s s' → s.workerDisabled = true →
      s'.workerDisabled = true) ∧
    (∀ s', SchedStep total lanes s s' → s.workerDisabled = true →
      ∀ j, 0 < j → ∀ i, s'.slots j = SlotPhase.working i →
        s.slots j = SlotPhase.working i) ∧
    (schedTerminal lanes s →
      (∀ i, i < total → s.writes i = 1) ∧ (∀ i, total ≤ i → s.writes i = 0)) := by
  refine ⟨?_, ?_, ?_⟩
  · intro s' hss' hd
    exact workerDisabled_sticky total lanes hss' hd
  · intro s' hstep hd j hj0 i hw
    exact no_new_work_when_disabled total lanes hstep hd j hj0 i hw
  · intro hterm
    obtain ⟨h1, h2, h3, h4⟩ := schedInv_reach total lanes s hreach
    have hzero : ∀ i, inflight lanes s.slots i = 0 :=
      inflight_terminal lanes s.slots hterm
    have hnext : total ≤ s.nextIndex := h4 (hterm 0 hlanes)
    constructor
    · intro i hi
      have := h1 i (by omega) hi
      have := hzero i
      omega
    · intro i hi
      exact (h3 i hi).1

/-- Trace state: slot 0 pulled page index 0. -/
def schedW1 : SchedState :=
  { nextIndex := 1, workerDisabled := false,
    slots := Function.update initSched.slots 0 (SlotPhase.working 0),
    writes := initSched.writes }

/-- Trace state: the pool job for index 0 rejected — pool torn down. -/
def schedW2 : SchedState :=
  { nextIndex := 1, workerDisabled := true,
    slots := Function.update schedW1.slots 0 (SlotPhase.fallback 0),
    writes := schedW1.writes }

/-- Trace state: slot 1 saw the disabled flag and returned. -/
def schedW3 : SchedState :=
  { nextIndex := 1, workerDisabled := true,
    slots := Function.update schedW2.slots 1 SlotPhase.done,
    writes := schedW2.writes }

/-- Trace state: slot 0 finished index 0 in-process. -/
def schedW4 : SchedState :=
  { nextIndex := 1, workerDisabled := true,
    slots := Function.update schedW3.slots 0 SlotPhase.ready,
    writes := Function.update schedW3.writes 0 (schedW3.writes 0 + 1) }

/-- Trace state: slot 0 pulled page index 1. -/
def schedW5 : SchedState :=
  { nextIndex := 2, workerDisabled := true,
    slots := Function.update schedW4.slots 0 (SlotPhase.working 1),
    writes := schedW4.writes }

/-- Trace state: no pool, straight to the in-process path. -/
def schedW6 : SchedState :=
  { nextIndex := 2, workerDisabled := true,
    slots := Function.update schedW5.slots 0 (SlotPhase.fallback 1),
    writes := schedW5.writes }

/-- Trace state: slot 0 finished index 1 in-process. -/
def schedW7 : SchedState :=
  { nextIndex := 2, workerDisabled := true,
    slots := Function.update schedW6.slots 0 SlotPhase.ready,
    writes := Function.update schedW6.writes 1 (schedW6.writes 1 + 1) }

/-- Trace state: the input is exhausted, slot 0 returned; terminal. -/
def schedW8 : SchedState :=
  { nextIndex := 3, workerDisabled := true,
    slots := Function.update schedW7.slots 0 SlotPhase.done,
    writes := schedW7.writes }

/-- Witness for C5: two lanes, two pages; the pool job for the first page
fails, the batch degrades to the single slot 0, and both pages still end up
written exactly once. -/
theorem stickyFallback_spec_witness :
    (0 < 2) ∧ SchedReach 2 2 initSched schedW8 ∧
    schedW8.workerDisabled = true ∧
    schedW8.writes 0 = 1 ∧ schedW8.writes 1 = 1 ∧ schedW8.writes 2 = 0 := by
  have h01 : SchedStep 2 2 initSched schedW1 :=
    SchedStep.pullWork 0 (by decide) (Or.inl rfl) rfl (by decide)
  have h12 : SchedStep 2 2 schedW1 schedW2 :=
    SchedStep.workerFail 0 0 (by decide) rfl rfl
  have h23 : SchedStep 2 2 schedW2 schedW3 :=
    SchedStep.exitDisabled 1 (by decide) (by decide) rfl rfl
  have h34 : SchedStep 2 2 schedW3 schedW4 :=
    SchedStep.fallbackDone 0 0 (by decide) rfl
  have h45 : SchedStep 2 2 schedW4 schedW5 :=
    SchedStep.pullWork 0 (by decide) (Or.inr rfl) rfl (by decide)
  have h56 : SchedStep 2 2 schedW5 schedW6 :=
    SchedStep.skipWorker 0 1 (by decide) rfl rfl
  have h67 : SchedStep 2 2 schedW6 schedW7 :=
    SchedStep.fallbackDone 0 1 (by decide) rfl
  have h78 : SchedStep 2 2 schedW7 schedW8 :=
    SchedStep.pullExit 0 (by decide) (Or.inr rfl) rfl (by decide)
  have hreach : SchedReach 2 2 initSched schedW8 :=
    (((((((Relation.ReflTransGen.single h01).tail h12).tail h23).tail
      h34).tail h45).tail h56).tail h67).tail h78
  have hterm : schedTerminal 2 schedW8 := by
    intro j hj
    interval_cases j
    · rfl
    · rfl
  refine ⟨by norm_num, hreach, rfl, ?_, ?_, ?_⟩
  · exact ((stickyFallback_spec 2 2 (by norm_num) schedW8 hreach).2.2 hterm).1 0
      (by norm_num)
  · exact ((stickyFallback_spec 2 2 (by norm_num) schedW8 hreach).2.2 hterm).1 1
      (by norm_num)
  · exact ((stickyFallback_spec 2 2 (by norm_num) schedW8 hreach).2.2 hterm).2 2
      (by norm_num)

end Xtcjs
